import Mathlib

/-!
# validator-mev-research: collector loop and statistics engine

A shallow embedding of `main.go`.

* Go `int64` and `int` (64 bit) values are integers; where the source can overflow the
  result is reduced with `wrap64`.
* A Go runtime panic is an `Except.error` carrying a `Panic`.
* The collector's effects (HTTP fetches, sleeps, file writes, the failure line) are
  recorded as a list of `Event`s in the order the program performs them; the outcome
  of each HTTP request is supplied by an oracle indexed by block number and attempt
  (a run requests each pair at most once).
* `float64` arithmetic is exact arithmetic in a field; the conversions into `float64`
  are parameters, and `toFloat64` is the conversion of an `int64` with its rounding.
* A `big.Float` is the rational number it holds; `Quo` rounds its result to the
  precision of the receiver (`roundToPrec`).
-/

namespace MevResearch

/-! ## Machine integers -/

/-- Two's-complement reduction of an integer to the `int64` range. -/
def wrap64 (x : Int) : Int :=
  (x + 2 ^ 63) % 2 ^ 64 - 2 ^ 63

/-- The value fits in an `int64`. -/
def isInt64 (x : Int) : Prop :=
  -(2 ^ 63) ≤ x ∧ x < 2 ^ 63

instance (x : Int) : Decidable (isInt64 x) := by
  unfold isInt64; infer_instance

/-! ## Data model -/

/-- The `Reward` struct of `main.go`. -/
structure Reward where
  BlockNumber : Int
  ProducerReward : Int
  TxCount : Int
  deriving DecidableEq, Repr

/-- Runtime panics the program can raise. -/
inductive Panic where
  /-- Index expression `s[i]` with `i` outside `0 ≤ i < len`. -/
  | indexOutOfRange (index : Int) (len : Nat)
  /-- Quotient of zero by zero in `big.Float.Quo` (`big.ErrNaN`). -/
  | errNaN
  deriving DecidableEq, Repr

/-- Go index expression `s[i]` on a slice, with its bounds check. -/
def index {α : Type} (s : List α) (i : Int) : Except Panic α :=
  match s[i.toNat]? with
  | some a => if 0 ≤ i then .ok a else .error (.indexOutOfRange i s.length)
  | none => .error (.indexOutOfRange i s.length)

/-! ## Statistics engine: partition of the records -/

/-- First loop of `printMathResults`: the reward of every record, in order. -/
def allValues (rewards : List Reward) : List Int :=
  rewards.foldl (fun values reward => values ++ [reward.ProducerReward]) []

/-- Body of the second loop of `printMathResults` (`for i, reward := range rewards`),
started at index `i` with `rest` the records from `i` on and `acc` the slice
`emptyBlockRewards` built so far. -/
def emptyBlockLoop (rewards : List Reward) :
    Nat → List Reward → List Int → Except Panic (List Int)
  | _, [], acc => .ok acc
  | i, reward :: rest, acc =>
    if reward.TxCount = 0 ∧ (i : Int) < (rewards.length : Int) - 1 then
      match index rewards ((i : Int) + 1) with
      | .ok next => emptyBlockLoop rewards (i + 1) rest (acc ++ [next.ProducerReward])
      | .error p => .error p
    else
      emptyBlockLoop rewards (i + 1) rest acc

/-- The slice `emptyBlockRewards` of `printMathResults`. -/
def emptyBlockRewards (rewards : List Reward) : Except Panic (List Int) :=
  emptyBlockLoop rewards 0 rewards []

/-- The post-empty-block list as the specification words it: in sequence order, the
reward of record `i + 1` for every index `i` whose record has no transactions and is
not the last one (`i < len - 1`). -/
def postEmptyBlockSpec (rewards : List Reward) : List Int :=
  (List.range rewards.length).filterMap fun i =>
    if h : i + 1 < rewards.length then
      if rewards[i].TxCount = 0 then some rewards[i + 1].ProducerReward else none
    else none

/-! ## Statistics engine: the four statistics

`float64` values live in a field `F` whose arithmetic is exact; the conversion
`float64(x)` of an `int64` is the parameter `toF`, the conversion `Float64()` of a
`big.Float` is the parameter `ofBig`, `math.Sqrt` is the parameter `sqrt` and the
comparison of two floats is the parameter `lt`. Division of a float by zero yields a
value (NaN or an infinity in Go), never a panic. -/

/-- Number of low binary digits that do not fit a 53-bit significand: `0` when
`m < 2 ^ 53`, else one more than for `m / 2`. The first argument bounds the recursion;
`64` covers every magnitude below `2 ^ 117`. -/
def excessBits : Nat → Nat → Nat
  | 0, _ => 0
  | fuel + 1, m => if m < 2 ^ 53 then 0 else excessBits fuel (m / 2) + 1

/-- Value of `float64(x)` for an `int64` `x`: the nearest number with a 53-bit
significand, ties to even. It is always an integer. -/
def roundF64 (x : Int) : Int :=
  let m := x.natAbs
  if m < 2 ^ 53 then x
  else
    let e := excessBits 64 m
    let q := m / 2 ^ e
    let r := m % 2 ^ e
    let half := 2 ^ (e - 1)
    let q := if half < r ∨ (r = half ∧ q % 2 = 1) then q + 1 else q
    Int.sign x * ((q * 2 ^ e : Nat) : Int)

/-- The `float64` conversion as a rational number. For a `float64` that holds an integer
of magnitude at most `2 ^ 63`, halving is exact, so with this conversion
`calculateMedian` over `ℚ` returns the very number the program returns. -/
def toFloat64 (x : Int) : ℚ :=
  (roundF64 x : ℚ)

/-- Nearest integer to a rational number, a tie going to the even neighbour. -/
def roundHalfEven (r : ℚ) : Int :=
  let f := ⌊r⌋
  if r - f < 1 / 2 then f
  else if 1 / 2 < r - f then f + 1
  else if f % 2 = 0 then f else f + 1

/-- Rounding of a `big.Float` result to a mantissa of `prec` bits in the default mode
`ToNearestEven`: with `2 ^ e ≤ |q| < 2 ^ (e + 1)` the value is rounded to the nearest
multiple of `2 ^ (e - (prec - 1))`. The exponent of a `big.Float` is a 32-bit integer,
so no value of the program leaves its range. -/
def roundToPrec (prec : Nat) (q : ℚ) : ℚ :=
  if q = 0 then 0
  else
    let s : Int := Int.log 2 |q| - ((prec : Int) - 1)
    (roundHalfEven (q / 2 ^ s) : ℚ) * 2 ^ s

/-- Method `(*big.Float).Quo` with a receiver of precision `prec`: panics with `ErrNaN`
when both operands are zero, and otherwise sets the receiver to the quotient rounded to
its precision. (A non-zero value divided by zero gives an infinity in Go; `calculateMean`
never does that, its only zero divisor comes with the sum zero.) -/
def bigQuo (prec : Nat) (x y : ℚ) : Except Panic ℚ :=
  if x = 0 ∧ y = 0 then .error .errNaN else .ok (roundToPrec prec (x / y))

/-- The `big.Int` accumulator `sum` of `calculateMean` after its loop. -/
def calculateMeanSum (rewards : List Int) : Int :=
  rewards.foldl (fun sum reward => sum + reward) 0

/-- Precision of the `big.Float` `mean` in `calculateMean`: `SetInt` on a fresh value
sets it to the larger of the bit length of the sum and 64. -/
def meanPrec (rewards : List Int) : Nat :=
  max (Nat.size (calculateMeanSum rewards).natAbs) 64

/-- Function `calculateMean`: the arbitrary-precision sum, converted exactly to a
`big.Float`, divided by the count and then by `1e18`; each `Quo` rounds to the precision
of `mean`. The divisors `float64(len(rewards))` and `1e18` are exact. -/
def calculateMean (rewards : List Int) : Except Panic ℚ := do
  let sum := calculateMeanSum rewards
  let prec := meanPrec rewards
  let mean ← bigQuo prec (sum : ℚ) (rewards.length : ℚ)
  bigQuo prec mean (10 ^ 18)

/-- Call of `sort.Slice` on `values` with the comparison `values[i] < values[j]`: the
slice rearranged into ascending order. -/
def sortSlice (values : List Int) : List Int :=
  values.insertionSort (· ≤ ·)

/-- Function `calculateMedian`. The slice is sorted in place, so the sorted slice is
returned next to the median. The sum of the two middle values is an `int64` addition. -/
def calculateMedian {F : Type} [Field F] (toF : Int → F) (values : List Int) :
    Except Panic (F × List Int) := do
  let values := sortSlice values
  let middle : Int := (values.length : Int) / 2
  if (values.length : Int) % 2 = 0 then
    let a ← index values (middle - 1)
    let b ← index values middle
    pure (toF (wrap64 (a + b)) / 2, values)
  else
    let m ← index values middle
    pure (toF m, values)

/-- Function `calculateStdDev`: the square root of the summed squared deviations of the
scaled values from `mean`, divided by the count. -/
def calculateStdDev {F : Type} [Field F] (toF : Int → F) (sqrt : F → F)
    (values : List Int) (mean : F) : F :=
  let sum := values.foldl (fun sum value => sum + (toF value / 10 ^ 18 - mean) ^ 2) 0
  sqrt (sum / (values.length : F))

/-- Function `calculateRange`: smallest and largest scaled value. -/
def calculateRange {F : Type} [Field F] (toF : Int → F) (lt : F → F → Bool)
    (values : List Int) : Except Panic (F × F) := do
  let first ← index values 0
  let min := toF first / 10 ^ 18
  let max := toF first / 10 ^ 18
  pure <| (values.drop 1).foldl (fun (mm : F × F) value =>
    let valueInEth := toF value / 10 ^ 18
    let min := if lt valueInEth mm.1 then valueInEth else mm.1
    let max := if lt mm.2 valueInEth then valueInEth else mm.2
    (min, max)) (min, max)

/-- What `printStatistics` computes: `stdDev` is the value of its local variable
`stdDev` (the result of `calculateStdDev`), `stdDevPrinted` the number on the
"Standard Deviation" line. -/
structure Statistics (F : Type) where
  mean : F
  median : F
  stdDev : F
  stdDevPrinted : F
  min : F
  max : F

/-- Function `printStatistics`. `calculateMedian` leaves the slice sorted for the two
calls after it. -/
def printStatistics {F : Type} [Field F] (toF : Int → F) (ofBig : ℚ → F) (sqrt : F → F)
    (lt : F → F → Bool) (rewards : List Int) : Except Panic (Statistics F) := do
  let meanBigFloat ← calculateMean rewards
  let mean := ofBig meanBigFloat
  let (med, rewards) ← calculateMedian toF rewards
  let median := med / 10 ^ 18
  let stdDev := calculateStdDev toF sqrt rewards (mean * 10 ^ 18)
  let (min, max) ← calculateRange toF lt rewards
  pure ⟨mean, median, stdDev, stdDev / 10 ^ 18, min, max⟩

/-- Population standard deviation of the rewards in scaled units, as the
specification words it: the square root of `(1/N) * Σ (v / 10^18 - m)^2` with `m` the
mean of the scaled values. -/
def populationStdDev {F : Type} [Field F] (sqrt : F → F) (values : List Int) : F :=
  let n : F := (values.length : F)
  let m : F := (values.map fun v => (v : F) / 10 ^ 18).sum / n
  sqrt (1 / n * (values.map fun v => ((v : F) / 10 ^ 18 - m) ^ 2).sum)

/-- What `printMathResults` prints. -/
structure Report (F : Type) where
  zeroRewardCount : Nat
  zeroRewardPercentage : F
  allBlocks : Statistics F
  afterEmptyBlocks : Statistics F

/-- Counter `zeroRewardCount` of the first loop of `printMathResults`. -/
def zeroRewardCount (rewards : List Reward) : Nat :=
  rewards.foldl (fun count reward => if reward.ProducerReward = 0 then count + 1 else count) 0

/-- Function `printMathResults`: both partitions, then the statistics of each. -/
def printMathResults {F : Type} [Field F] (toF : Int → F) (ofBig : ℚ → F) (sqrt : F → F)
    (lt : F → F → Bool) (rewards : List Reward) : Except Panic (Report F) := do
  let values := allValues rewards
  let zeroCount := zeroRewardCount rewards
  let emptyBlock ← emptyBlockRewards rewards
  let zeroRewardPercentage := (zeroCount : F) / (rewards.length : F) * 100
  let all ← printStatistics toF ofBig sqrt lt values
  let afterEmpty ← printStatistics toF ofBig sqrt lt emptyBlock
  pure ⟨zeroCount, zeroRewardPercentage, all, afterEmpty⟩

/-! ## Collector -/

/-- Constant `maxRetries`. -/
def maxRetries : Nat := 10

/-- Initial value of `startBlock` in `main`. -/
def defaultStartBlock : Int := 17000000

/-- Value of `endBlock` in `main`. -/
def endBlock : Int := 17050000

/-- What one HTTP request can come back with: `http.Get` fails, the body does not
decode, or it decodes to a response whose `Data` holds `(ProducerReward, TxCount)`
entries. -/
inductive FetchOutcome where
  | transportError
  | decodeError
  | response (data : List (Int × Int))
  deriving DecidableEq, Repr

/-- The attempt is one the retry loop treats as failed: a transport error, a decode
error or an empty `Data` array. -/
def FetchOutcome.isFailure : FetchOutcome → Bool
  | .response (_ :: _) => false
  | _ => true

/-- Effects of the collector, in program order. Console lines of single attempts are
not recorded. -/
inductive Event where
  /-- Request `http.Get` for a block, issued in attempt number `attempt`. -/
  | fetch (blockNumber : Int) (attempt : Nat)
  /-- Call of `time.Sleep` for the given number of seconds. -/
  | sleep (seconds : Nat)
  /-- Call `writeRewardToFile(rewards)`. -/
  | write (rewards : List Reward)
  /-- The line "Block ... TxCount: ... Reward: ...". -/
  | logSuccess (blockNumber : Int)
  /-- The line "Failed to fetch valid Reward for block ...". -/
  | logFailure (blockNumber : Int)
  deriving DecidableEq, Repr

/-- Variables `blockReward`, `blockTxCount` and `success` after the retry loop, and the
effects of the loop. -/
structure AttemptResult where
  blockReward : Int
  blockTxCount : Int
  success : Bool
  events : List Event
  deriving DecidableEq, Repr

/-- The retry loop `for attempt := 0; attempt < maxRetries; attempt++` of `main` for one
block, entered at `attempt` with `remaining = maxRetries - attempt` iterations to go.
-/
def attemptLoop (fetch : Int → Nat → FetchOutcome) (blockNumber : Int) :
    Nat → Nat → AttemptResult
  | 0, _ => ⟨0, 0, false, []⟩
  | remaining + 1, attempt =>
    let retry : AttemptResult :=
      let r := attemptLoop fetch blockNumber remaining (attempt + 1)
      { r with events := .fetch blockNumber attempt :: .sleep (attempt * attempt) :: r.events }
    match fetch blockNumber attempt with
    | .transportError => retry
    | .decodeError => retry
    | .response [] => retry
    | .response (d :: _) => ⟨d.1, d.2, true, [.fetch blockNumber attempt]⟩

/-- One iteration of the block loop of `main`: the retry loop, then either the append
and `writeRewardToFile` or the failure line. Returns the in-memory slice `rewards`
afterwards and the effects. `int` and `int64` are both 64 bits wide, so
`int64(blockNumber)` is `blockNumber`. -/
def collectBlock (fetch : Int → Nat → FetchOutcome) (blockNumber : Int)
    (rewards : List Reward) : List Reward × List Event :=
  let r := attemptLoop fetch blockNumber maxRetries 0
  if r.success then
    let reward : Reward := ⟨blockNumber, r.blockReward, r.blockTxCount⟩
    let rewards := rewards ++ [reward]
    (rewards, r.events ++ [.write rewards, .logSuccess blockNumber])
  else
    (rewards, r.events ++ [.logFailure blockNumber])

/-- The block loop `for blockNumber := startBlock; blockNumber <= endBlock;
blockNumber++`, entered at `blockNumber` with `remaining` iterations to go. -/
def collectLoop (fetch : Int → Nat → FetchOutcome) :
    Nat → Int → List Reward → List Reward × List Event
  | 0, _, rewards => (rewards, [])
  | remaining + 1, blockNumber, rewards =>
    let step := collectBlock fetch blockNumber rewards
    let rest := collectLoop fetch remaining (blockNumber + 1) step.1
    (rest.1, step.2 ++ rest.2)

/-- Start of collection mode in `main`: the result of `readRewardsFromFile` decides the
slice `rewards` and the value of `startBlock`. On a read error the slice is empty. -/
def resume (loaded : Except String (List Reward)) : Int × List Reward :=
  match loaded with
  | .error _ => (defaultStartBlock, [])
  | .ok rewards =>
    if 0 < rewards.length then
      match rewards.getLast? with
      | some last => (wrap64 (last.BlockNumber + 1), rewards)
      | none => (defaultStartBlock, rewards)
    else (defaultStartBlock, rewards)

/-- Collection mode of `main`: the loop runs `blockNumber` from `startBlock` to
`endBlock` inclusive, which is `endBlock - startBlock + 1` iterations, or none when
`startBlock > endBlock`. -/
def collect (fetch : Int → Nat → FetchOutcome) (loaded : Except String (List Reward)) :
    List Reward × List Event :=
  let start := resume loaded
  collectLoop fetch (endBlock - start.1 + 1).toNat start.1 start.2

/-- Block number of the first HTTP request among the effects, if there is one. -/
def firstFetched (events : List Event) : Option Int :=
  events.findSome? fun
    | .fetch blockNumber _ => some blockNumber
    | _ => none

/-- Number of HTTP requests among the effects. -/
def attemptsMade (events : List Event) : Nat :=
  events.countP fun
    | .fetch _ _ => true
    | _ => false

/-- Total number of seconds slept among the effects. -/
def totalSlept (events : List Event) : Nat :=
  (events.map fun
    | .sleep seconds => seconds
    | _ => 0).sum

/-- The sequences handed to `writeRewardToFile`, in order. -/
def written (events : List Event) : List (List Reward) :=
  events.filterMap fun
    | .write rewards => some rewards
    | _ => none

/-- Strictly ascending block numbers. -/
def Ascending (rewards : List Reward) : Prop :=
  rewards.Pairwise fun a b => a.BlockNumber < b.BlockNumber

/-! ## Theorems -/

/-- Effects of `count` failed attempts for a block, the first of them attempt number
`attempt`: each is the request followed by a sleep of `attempt * attempt` seconds. -/
def failedAttempts (blockNumber : Int) : Nat → Nat → List Event
  | 0, _ => []
  | count + 1, attempt =>
    .fetch blockNumber attempt :: .sleep (attempt * attempt) ::
      failedAttempts blockNumber count (attempt + 1)

/-! ## Theorems: partition of the records -/

theorem index_natCast {α : Type} (s : List α) (i : Nat) (a : α) (h : s[i]? = some a) :
    index s (i : Int) = .ok a := by
  simp [index, h]

/-- The entry the specification picks at index `i`, written with optional lookups. -/
theorem postEmptyBlock_pick (rewards : List Reward) (i : Nat) :
    (if h : i + 1 < rewards.length then
      if rewards[i].TxCount = 0 then some rewards[i + 1].ProducerReward else none
    else none) =
    (match rewards[i]?, rewards[i + 1]? with
      | some r, some next => if r.TxCount = 0 then some next.ProducerReward else none
      | _, _ => none) := by
  by_cases h : i + 1 < rewards.length
  · have hi : i < rewards.length := by omega
    rw [dif_pos h, List.getElem?_eq_getElem hi, List.getElem?_eq_getElem h]
  · rw [dif_neg h, List.getElem?_eq_none (by omega : rewards.length ≤ i + 1)]
    cases rewards[i]? <;> rfl

theorem emptyBlockLoop_eq (rewards : List Reward) :
    ∀ (rest : List Reward) (i : Nat) (acc : List Int),
      rewards.drop i = rest →
      emptyBlockLoop rewards i rest acc =
        .ok (acc ++ (List.range' i rest.length).filterMap fun j =>
          match rewards[j]?, rewards[j + 1]? with
          | some r, some next => if r.TxCount = 0 then some next.ProducerReward else none
          | _, _ => none) := by
  intro rest
  induction rest with
  | nil => intro i acc _; simp [emptyBlockLoop]
  | cons reward rest ih =>
    intro i acc hdrop
    have hlen : i < rewards.length := by
      by_contra hge
      rw [List.drop_eq_nil_of_le (by omega)] at hdrop
      exact List.noConfusion hdrop
    have hi : rewards[i]? = some reward := by
      have := congrArg List.head? hdrop
      simpa [List.head?_drop] using this
    have hrest : rewards.drop (i + 1) = rest := by
      have := congrArg List.tail hdrop
      simpa [List.tail_drop] using this
    have hstep := ih (i + 1)
    rw [emptyBlockLoop]
    by_cases hc : reward.TxCount = 0 ∧ (i : Int) < (rewards.length : Int) - 1
    · have hlt : i + 1 < rewards.length := by omega
      have hnext : rewards[i + 1]? = some rewards[i + 1] := List.getElem?_eq_getElem hlt
      have hidx : index rewards ((i : Int) + 1) = .ok rewards[i + 1] := by
        have := index_natCast rewards (i + 1) _ hnext
        simpa using this
      rw [if_pos hc, hidx]
      simp only
      rw [hstep _ hrest]
      simp [List.range'_succ, hi, hnext, hc.1, List.filterMap_cons]
    · rw [if_neg hc, hstep _ hrest]
      have hnone : (match rewards[i]?, rewards[i + 1]? with
          | some r, some next => if r.TxCount = 0 then some next.ProducerReward else none
          | _, _ => none) = (none : Option Int) := by
        rw [hi]
        by_cases hlt : i + 1 < rewards.length
        · rw [List.getElem?_eq_getElem hlt]
          have : ¬ reward.TxCount = 0 := fun h0 => hc ⟨h0, by omega⟩
          simp [this]
        · rw [List.getElem?_eq_none (by omega)]
      simp [List.range'_succ, List.filterMap_cons, hnone]

theorem emptyBlockRewards_eq (rewards : List Reward) :
    emptyBlockRewards rewards = .ok (postEmptyBlockSpec rewards) := by
  have := emptyBlockLoop_eq rewards rewards 0 [] (by simp)
  have hfun : (fun i => if h : i + 1 < rewards.length then
      if rewards[i].TxCount = 0 then some rewards[i + 1].ProducerReward else none
    else none) = (fun j => match rewards[j]?, rewards[j + 1]? with
          | some r, some next => if r.TxCount = 0 then some next.ProducerReward else none
          | _, _ => none) := funext (postEmptyBlock_pick rewards)
  rw [emptyBlockRewards, this, postEmptyBlockSpec, hfun]
  simp [List.range_eq_range']

/-- C1: for every sequence of reward records the post-empty-block list that
`printMathResults` builds is, in sequence order, the reward of record `i + 1` for each
index `i` whose record has `TxCount = 0` and is not the last record (the loop never
indexes out of range); on the three-record example of the specification the list is
exactly `[9]`. -/
theorem C1_emptyBlockRewards_spec :
    (∀ rewards : List Reward, emptyBlockRewards rewards = .ok (postEmptyBlockSpec rewards)) ∧
    emptyBlockRewards [⟨1, 5, 0⟩, ⟨2, 9, 3⟩, ⟨3, 1, 0⟩] = .ok [9] :=
  ⟨emptyBlockRewards_eq, by rfl⟩

/-! ## Theorems: the retry loop -/

theorem attemptLoop_allFail (fetch : Int → Nat → FetchOutcome) (blockNumber : Int) :
    ∀ (remaining attempt : Nat),
      (∀ i, i < remaining → (fetch blockNumber (attempt + i)).isFailure = true) →
      attemptLoop fetch blockNumber remaining attempt =
        ⟨0, 0, false, failedAttempts blockNumber remaining attempt⟩ := by
  intro remaining
  induction remaining with
  | zero => intro attempt _; rfl
  | succ n ih =>
    intro attempt hfail
    have h0 := hfail 0 (Nat.succ_pos n)
    have hrec := ih (attempt + 1) (fun i hi => by
      have := hfail (i + 1) (by omega)
      rwa [show attempt + (i + 1) = attempt + 1 + i by omega] at this)
    rw [Nat.add_zero] at h0
    rw [attemptLoop, hrec]
    cases hf : fetch blockNumber attempt with
    | transportError => simp [failedAttempts]
    | decodeError => simp [failedAttempts]
    | response data =>
      cases data with
      | nil => simp [failedAttempts]
      | cons d ds => rw [hf] at h0; simp [FetchOutcome.isFailure] at h0

theorem attemptLoop_success (fetch : Int → Nat → FetchOutcome) (blockNumber : Int)
    (d : Int × Int) (ds : List (Int × Int)) :
    ∀ (k remaining attempt : Nat), k < remaining →
      (∀ i, i < k → (fetch blockNumber (attempt + i)).isFailure = true) →
      fetch blockNumber (attempt + k) = .response (d :: ds) →
      attemptLoop fetch blockNumber remaining attempt =
        ⟨d.1, d.2, true,
          failedAttempts blockNumber k attempt ++ [.fetch blockNumber (attempt + k)]⟩ := by
  intro k
  induction k with
  | zero =>
    intro remaining attempt hk _ hok
    obtain ⟨n, rfl⟩ : ∃ n, remaining = n + 1 := ⟨remaining - 1, by omega⟩
    rw [Nat.add_zero] at hok
    rw [attemptLoop, hok]
    simp [failedAttempts]
  | succ k ih =>
    intro remaining attempt hk hfail hok
    obtain ⟨n, rfl⟩ : ∃ n, remaining = n + 1 := ⟨remaining - 1, by omega⟩
    have h0 := hfail 0 (Nat.succ_pos k)
    rw [Nat.add_zero] at h0
    have hrec := ih n (attempt + 1) (by omega) (fun i hi => by
      have := hfail (i + 1) (by omega)
      rwa [show attempt + (i + 1) = attempt + 1 + i by omega] at this)
      (by rwa [show attempt + 1 + k = attempt + (k + 1) by omega])
    rw [attemptLoop, hrec]
    cases hf : fetch blockNumber attempt with
    | transportError => simp [failedAttempts]; omega
    | decodeError => simp [failedAttempts]; omega
    | response data =>
      cases data with
      | nil => simp [failedAttempts]; omega
      | cons d ds => rw [hf] at h0; simp [FetchOutcome.isFailure] at h0

theorem attemptsMade_append (a b : List Event) :
    attemptsMade (a ++ b) = attemptsMade a + attemptsMade b := by
  simp [attemptsMade, List.countP_append]

theorem totalSlept_append (a b : List Event) :
    totalSlept (a ++ b) = totalSlept a + totalSlept b := by
  simp [totalSlept]

theorem written_append (a b : List Event) : written (a ++ b) = written a ++ written b := by
  simp [written, List.filterMap_append]

theorem attemptsMade_failedAttempts (blockNumber : Int) :
    ∀ count attempt, attemptsMade (failedAttempts blockNumber count attempt) = count := by
  intro count
  induction count with
  | zero => intro _; rfl
  | succ n ih =>
    intro attempt
    have := ih (attempt + 1)
    simp only [attemptsMade] at this
    simp [failedAttempts, attemptsMade, this]

theorem totalSlept_failedAttempts (blockNumber : Int) :
    ∀ count attempt, totalSlept (failedAttempts blockNumber count attempt) =
      ∑ i in Finset.range count, (attempt + i) * (attempt + i) := by
  intro count
  induction count with
  | zero => intro _; rfl
  | succ n ih =>
    intro attempt
    have := ih (attempt + 1)
    simp only [totalSlept] at this
    rw [Finset.sum_range_succ']
    simp only [failedAttempts, totalSlept, List.map_cons, List.sum_cons, this]
    simp [Nat.add_comm, Nat.add_left_comm, Nat.add_assoc]

theorem written_failedAttempts (blockNumber : Int) :
    ∀ count attempt, written (failedAttempts blockNumber count attempt) = [] := by
  intro count
  induction count with
  | zero => intro _; rfl
  | succ n ih => intro attempt; simp [failedAttempts, written, List.filterMap_cons] at *; exact ih _

/-- C3: if the requests for a block fail (transport error, decode error or empty data
array) in attempts `0 .. k-1` and attempt `k < maxRetries` returns data, then exactly
`k + 1` requests are made for the block, the sleeps before the success add up to the
sum of `i * i` seconds over `i < k`, and the block is marked successful with the reward
and transaction count of `data[0]`, which the iteration appends and writes. With
`k = 3` this is 4 requests and 5 seconds. -/
theorem C3_retry_backoff (fetch : Int → Nat → FetchOutcome) (blockNumber : Int) (k : Nat)
    (d : Int × Int) (ds : List (Int × Int)) (rewards : List Reward)
    (hk : k < maxRetries)
    (hfail : ∀ i, i < k → (fetch blockNumber i).isFailure = true)
    (hok : fetch blockNumber k = .response (d :: ds)) :
    (attemptLoop fetch blockNumber maxRetries 0).events =
        failedAttempts blockNumber k 0 ++ [.fetch blockNumber k] ∧
    attemptsMade (attemptLoop fetch blockNumber maxRetries 0).events = k + 1 ∧
    totalSlept (attemptLoop fetch blockNumber maxRetries 0).events =
        ∑ i in Finset.range k, i * i ∧
    (attemptLoop fetch blockNumber maxRetries 0).success = true ∧
    (attemptLoop fetch blockNumber maxRetries 0).blockReward = d.1 ∧
    (attemptLoop fetch blockNumber maxRetries 0).blockTxCount = d.2 ∧
    collectBlock fetch blockNumber rewards =
      (rewards ++ [⟨blockNumber, d.1, d.2⟩],
        failedAttempts blockNumber k 0 ++ [.fetch blockNumber k] ++
          [.write (rewards ++ [⟨blockNumber, d.1, d.2⟩]), .logSuccess blockNumber]) ∧
    (k = 3 → attemptsMade (attemptLoop fetch blockNumber maxRetries 0).events = 4 ∧
      totalSlept (attemptLoop fetch blockNumber maxRetries 0).events = 5) := by
  have hloop := attemptLoop_success fetch blockNumber d ds k maxRetries 0 hk
    (fun i hi => by simpa using hfail i hi) (by simpa using hok)
  rw [Nat.zero_add] at hloop
  have hatt : attemptsMade (failedAttempts blockNumber k 0 ++ [Event.fetch blockNumber k]) =
      k + 1 := by
    rw [attemptsMade_append, attemptsMade_failedAttempts]; rfl
  have hslept : totalSlept (failedAttempts blockNumber k 0 ++ [Event.fetch blockNumber k]) =
      ∑ i in Finset.range k, i * i := by
    rw [totalSlept_append, totalSlept_failedAttempts]
    simp [totalSlept]
  refine ⟨by rw [hloop], by rw [hloop]; exact hatt, by rw [hloop]; exact hslept,
    by rw [hloop], by rw [hloop], by rw [hloop], ?_, ?_⟩
  · simp [collectBlock, hloop]
  · intro h3
    subst h3
    rw [hloop]
    exact ⟨hatt, by rw [hslept]; decide⟩

/-- Witness for C3: requests for block 17000000 fail three times, each in a different
way, and then return data: 4 requests, 5 seconds of sleep. -/
theorem C3_retry_backoff_witness :
    attemptsMade (attemptLoop (fun _ a =>
        if a = 0 then .transportError else if a = 1 then .decodeError
        else if a = 2 then .response [] else .response [(7, 8)])
      17000000 maxRetries 0).events = 4 ∧
    totalSlept (attemptLoop (fun _ a =>
        if a = 0 then .transportError else if a = 1 then .decodeError
        else if a = 2 then .response [] else .response [(7, 8)])
      17000000 maxRetries 0).events = 5 :=
  (C3_retry_backoff (fun _ a =>
        if a = 0 then .transportError else if a = 1 then .decodeError
        else if a = 2 then .response [] else .response [(7, 8)])
      17000000 3 (7, 8) [] [] (by decide)
      (fun i hi => by
        have : i = 0 ∨ i = 1 ∨ i = 2 := by omega
        rcases this with rfl | rfl | rfl <;> rfl)
      rfl).2.2.2.2.2.2.2 rfl

/-! ## Theorems: the block loop -/

theorem attemptLoop_events (fetch : Int → Nat → FetchOutcome) (blockNumber : Int) :
    ∀ (remaining attempt : Nat),
      written (attemptLoop fetch blockNumber remaining attempt).events = [] ∧
      ∀ b a, Event.fetch b a ∈ (attemptLoop fetch blockNumber remaining attempt).events →
        b = blockNumber := by
  intro remaining
  induction remaining with
  | zero => intro attempt; simp [attemptLoop, written]
  | succ n ih =>
    intro attempt
    obtain ⟨hw, hf⟩ := ih (attempt + 1)
    have hretry :
        written (Event.fetch blockNumber attempt :: Event.sleep (attempt * attempt) ::
          (attemptLoop fetch blockNumber n (attempt + 1)).events) = [] ∧
        ∀ b a, Event.fetch b a ∈ (Event.fetch blockNumber attempt ::
          Event.sleep (attempt * attempt) ::
          (attemptLoop fetch blockNumber n (attempt + 1)).events) → b = blockNumber := by
      refine ⟨?_, ?_⟩
      · simpa [written, List.filterMap_cons] using hw
      · intro b a h
        simp only [List.mem_cons] at h
        rcases h with h | h | h
        · injection h
        · cases h
        · exact hf b a h
    rw [attemptLoop]
    cases hfetch : fetch blockNumber attempt with
    | transportError => exact hretry
    | decodeError => exact hretry
    | response data =>
      cases data with
      | nil => exact hretry
      | cons d ds =>
        refine ⟨by simp [written, List.filterMap_cons], ?_⟩
        intro b a h
        simp only [List.mem_singleton] at h
        injection h

/-- One iteration either leaves the slice alone and writes nothing, or appends one
record carrying the iteration's block number and writes the extended slice. -/
theorem collectBlock_cases (fetch : Int → Nat → FetchOutcome) (blockNumber : Int)
    (rewards : List Reward) :
    (∀ b a, Event.fetch b a ∈ (collectBlock fetch blockNumber rewards).2 → b = blockNumber) ∧
    (((collectBlock fetch blockNumber rewards).1 = rewards ∧
        written (collectBlock fetch blockNumber rewards).2 = []) ∨
      ∃ reward txCount,
        (collectBlock fetch blockNumber rewards).1 =
          rewards ++ [⟨blockNumber, reward, txCount⟩] ∧
        written (collectBlock fetch blockNumber rewards).2 =
          [rewards ++ [⟨blockNumber, reward, txCount⟩]]) := by
  obtain ⟨hw, hf⟩ := attemptLoop_events fetch blockNumber maxRetries 0
  unfold collectBlock
  by_cases hs : (attemptLoop fetch blockNumber maxRetries 0).success = true
  · simp only [hs, if_true]
    refine ⟨?_, Or.inr ⟨_, _, rfl, ?_⟩⟩
    · intro b a h
      simp only [List.mem_append, List.mem_cons, List.mem_singleton] at h
      rcases h with h | h | h | h
      · exact hf b a h
      · cases h
      · cases h
      · simp at h
    · rw [written_append, hw]; simp [written, List.filterMap_cons]
  · simp only [hs]
    refine ⟨?_, Or.inl ⟨rfl, ?_⟩⟩
    · intro b a h
      simp only [Bool.false_eq_true, if_false, List.mem_append, List.mem_singleton] at h
      rcases h with h | h
      · exact hf b a h
      · cases h
    · simp only [Bool.false_eq_true, if_false]
      rw [written_append, hw]; simp [written, List.filterMap_cons]

/-- Invariant of the block loop entered at `blockNumber` with the slice `rewards`: the
final slice is `rewards` followed by new records `extra`, whose block numbers are at
least `blockNumber` and strictly ascending; every request is for a block number at
least `blockNumber`; and the sequences written are, in order, `rewards` followed by
the first one, two, ... of the new records. -/
theorem collectLoop_invariant (fetch : Int → Nat → FetchOutcome) :
    ∀ (remaining : Nat) (blockNumber : Int) (rewards : List Reward),
      ∃ extra : List Reward,
        (collectLoop fetch remaining blockNumber rewards).1 = rewards ++ extra ∧
        (∀ r ∈ extra, blockNumber ≤ r.BlockNumber) ∧
        Ascending extra ∧
        (∀ b a, Event.fetch b a ∈ (collectLoop fetch remaining blockNumber rewards).2 →
          blockNumber ≤ b) ∧
        written (collectLoop fetch remaining blockNumber rewards).2 =
          (List.range extra.length).map fun j => rewards ++ extra.take (j + 1) := by
  intro remaining
  induction remaining with
  | zero =>
    intro blockNumber rewards
    exact ⟨[], by simp [collectLoop], by simp, List.Pairwise.nil, by simp [collectLoop],
      by simp [collectLoop, written]⟩
  | succ n ih =>
    intro blockNumber rewards
    obtain ⟨hfetch, hcase⟩ := collectBlock_cases fetch blockNumber rewards
    obtain ⟨extra, hfin, hge, hasc, hreq, hwr⟩ :=
      ih (blockNumber + 1) (collectBlock fetch blockNumber rewards).1
    have hreq' : ∀ b a, Event.fetch b a ∈ (collectLoop fetch (n + 1) blockNumber rewards).2 →
        blockNumber ≤ b := by
      intro b a h
      simp only [collectLoop, List.mem_append] at h
      rcases h with h | h
      · exact le_of_eq (hfetch b a h).symm
      · have := hreq b a h; omega
    rcases hcase with ⟨hsame, hnone⟩ | ⟨reward, txCount, happ, hone⟩
    · refine ⟨extra, ?_, fun r hr => by have := hge r hr; omega, hasc, hreq', ?_⟩
      · simp only [collectLoop]; rw [hfin, hsame]
      · simp only [collectLoop]; rw [written_append, hnone, hwr, hsame]; rfl
    · refine ⟨⟨blockNumber, reward, txCount⟩ :: extra, ?_, ?_, ?_, hreq', ?_⟩
      · simp only [collectLoop]; rw [hfin, happ]; simp
      · intro r hr
        rcases List.mem_cons.1 hr with rfl | hr
        · exact le_refl _
        · have := hge r hr; omega
      · exact List.Pairwise.cons (fun r hr => by have := hge r hr; show blockNumber < _; omega) hasc
      · simp only [collectLoop]
        rw [written_append, hone, hwr, happ, List.length_cons, List.range_succ_eq_map]
        simp [Function.comp_def]

/-- C4: when all `maxRetries` requests for a block fail, the iteration makes exactly 10
requests, leaves the in-memory slice as it was, calls `writeRewardToFile` not at all
and ends with the failure line; the loop goes on with the next block number on the
unchanged slice; no later iteration requests the skipped block again, and every record
added from this iteration on, in memory or in a written sequence, has a larger block
number. -/
theorem C4_exhausted_retries (fetch : Int → Nat → FetchOutcome) (blockNumber : Int)
    (remaining : Nat) (rewards : List Reward)
    (hfail : ∀ i, i < maxRetries → (fetch blockNumber i).isFailure = true) :
    collectBlock fetch blockNumber rewards =
      (rewards, failedAttempts blockNumber maxRetries 0 ++ [.logFailure blockNumber]) ∧
    attemptsMade (collectBlock fetch blockNumber rewards).2 = 10 ∧
    written (collectBlock fetch blockNumber rewards).2 = [] ∧
    collectLoop fetch (remaining + 1) blockNumber rewards =
      ((collectLoop fetch remaining (blockNumber + 1) rewards).1,
        failedAttempts blockNumber maxRetries 0 ++ [.logFailure blockNumber] ++
          (collectLoop fetch remaining (blockNumber + 1) rewards).2) ∧
    (∀ a, Event.fetch blockNumber a ∉
      (collectLoop fetch remaining (blockNumber + 1) rewards).2) ∧
    (∃ extra, (collectLoop fetch (remaining + 1) blockNumber rewards).1 = rewards ++ extra ∧
      ∀ r ∈ extra, blockNumber < r.BlockNumber) ∧
    (∀ w ∈ written (collectLoop fetch (remaining + 1) blockNumber rewards).2,
      ∃ extra, w = rewards ++ extra ∧ ∀ r ∈ extra, blockNumber < r.BlockNumber) := by
  have hloop := attemptLoop_allFail fetch blockNumber maxRetries 0
    (fun i hi => by simpa using hfail i hi)
  have hblock : collectBlock fetch blockNumber rewards =
      (rewards, failedAttempts blockNumber maxRetries 0 ++ [.logFailure blockNumber]) := by
    simp [collectBlock, hloop]
  have hstep : collectLoop fetch (remaining + 1) blockNumber rewards =
      ((collectLoop fetch remaining (blockNumber + 1) rewards).1,
        failedAttempts blockNumber maxRetries 0 ++ [.logFailure blockNumber] ++
          (collectLoop fetch remaining (blockNumber + 1) rewards).2) := by
    simp only [collectLoop, hblock]
  have hwfail : written
      (failedAttempts blockNumber maxRetries 0 ++ [Event.logFailure blockNumber]) = [] := by
    rw [written_append, written_failedAttempts]; rfl
  obtain ⟨extra, hfin, hge, _, hreq, hwr⟩ :=
    collectLoop_invariant fetch remaining (blockNumber + 1) rewards
  have hgt : ∀ r ∈ extra, blockNumber < r.BlockNumber := fun r hr => by
    have := hge r hr; omega
  refine ⟨hblock, ?_, ?_, hstep, ?_, ⟨extra, ?_, hgt⟩, ?_⟩
  · rw [hblock, attemptsMade_append, attemptsMade_failedAttempts]; rfl
  · rw [hblock]; exact hwfail
  · intro a hmem
    have := hreq blockNumber a hmem
    omega
  · rw [hstep]; exact hfin
  · intro w hw
    rw [hstep, written_append, hwfail, List.nil_append, hwr] at hw
    obtain ⟨j, _, rfl⟩ := List.mem_map.1 hw
    exact ⟨extra.take (j + 1), rfl, fun r hr => hgt r (List.mem_of_mem_take hr)⟩

/-- Witness for C4: every request for block 17000000 ends in a transport error. -/
theorem C4_exhausted_retries_witness :
    collectBlock (fun _ _ => .transportError) 17000000 [⟨16999999, 5, 1⟩] =
      ([⟨16999999, 5, 1⟩],
        failedAttempts 17000000 maxRetries 0 ++ [.logFailure 17000000]) ∧
    attemptsMade (collectBlock (fun _ _ => .transportError) 17000000
      [⟨16999999, 5, 1⟩]).2 = 10 :=
  ⟨(C4_exhausted_retries (fun _ _ => .transportError) 17000000 0 [⟨16999999, 5, 1⟩]
      (fun _ _ => rfl)).1,
    (C4_exhausted_retries (fun _ _ => .transportError) 17000000 0 [⟨16999999, 5, 1⟩]
      (fun _ _ => rfl)).2.1⟩

/-! ## Theorems: where collection starts -/

theorem wrap64_of_isInt64 (x : Int) (h : isInt64 x) : wrap64 x = x := by
  unfold isInt64 at h
  unfold wrap64
  omega

theorem firstFetched_attemptLoop (fetch : Int → Nat → FetchOutcome) (blockNumber : Int)
    (n attempt : Nat) (tail : List Event) :
    firstFetched ((attemptLoop fetch blockNumber (n + 1) attempt).events ++ tail) =
      some blockNumber := by
  rw [attemptLoop]
  cases fetch blockNumber attempt with
  | transportError => simp [firstFetched, List.findSome?_cons]
  | decodeError => simp [firstFetched, List.findSome?_cons]
  | response data =>
    cases data with
    | nil => simp [firstFetched, List.findSome?_cons]
    | cons d ds => simp [firstFetched, List.findSome?_cons]

/-- An iteration of the block loop starts with a request for its block number. -/
theorem firstFetched_collectLoop (fetch : Int → Nat → FetchOutcome) (n : Nat)
    (blockNumber : Int) (rewards : List Reward) :
    firstFetched (collectLoop fetch (n + 1) blockNumber rewards).2 = some blockNumber := by
  simp only [collectLoop, collectBlock]
  split
  · rw [List.append_assoc]; exact firstFetched_attemptLoop fetch blockNumber 9 0 _
  · rw [List.append_assoc]; exact firstFetched_attemptLoop fetch blockNumber 9 0 _

/-- C2 as stated fails: after a sequence whose last record is block 17050000 the start
value 17050001 is past `endBlock`, and the loop requests no block at all. -/
theorem C2_counterexample_no_fetch :
    firstFetched (collect (fun _ _ => .response [(1, 1)])
      (.ok [⟨17050000, 0, 0⟩])).2 = none ∧
    firstFetched (collect (fun _ _ => .response [(1, 1)])
      (.ok [⟨17050000, 0, 0⟩])).2 ≠ some (17050000 + 1) := by
  have h : (collect (fun _ _ => .response [(1, 1)]) (.ok [⟨17050000, 0, 0⟩])).2 = [] := by
    decide
  rw [h]
  exact ⟨rfl, by simp [firstFetched]⟩

/-- C2, amended: the start value of the block loop is 17000000 when the store is
unreadable or the loaded sequence is empty, and otherwise one more than the block number
`b` of the last loaded record, for every `int64` `b` below `2 ^ 63 - 1`. When that start
value is at most `endBlock = 17050000` it is the first block number requested; when it
is larger, nothing is requested. -/
theorem C2_start_block (fetch : Int → Nat → FetchOutcome) :
    (∀ e, (resume (.error e)).1 = 17000000 ∧
      firstFetched (collect fetch (.error e)).2 = some 17000000) ∧
    ((resume (.ok [])).1 = 17000000 ∧
      firstFetched (collect fetch (.ok [])).2 = some 17000000) ∧
    (∀ (rewards : List Reward) (last : Reward),
      isInt64 last.BlockNumber → last.BlockNumber < 2 ^ 63 - 1 →
      (resume (.ok (rewards ++ [last]))).1 = last.BlockNumber + 1 ∧
      (last.BlockNumber + 1 ≤ endBlock →
        firstFetched (collect fetch (.ok (rewards ++ [last]))).2 =
          some (last.BlockNumber + 1)) ∧
      (endBlock < last.BlockNumber + 1 →
        collect fetch (.ok (rewards ++ [last])) = (rewards ++ [last], []))) := by
  have hdefault : ∀ rs : List Reward,
      firstFetched (collectLoop fetch (endBlock - defaultStartBlock + 1).toNat
        defaultStartBlock rs).2 = some 17000000 := by
    intro rs
    have : (endBlock - defaultStartBlock + 1).toNat = 50000 + 1 := by decide
    rw [this]
    exact firstFetched_collectLoop fetch 50000 defaultStartBlock rs
  refine ⟨fun e => ⟨rfl, hdefault []⟩, ⟨rfl, hdefault []⟩, ?_⟩
  intro rewards last hint hmax
  have hstart : resume (.ok (rewards ++ [last])) =
      (last.BlockNumber + 1, rewards ++ [last]) := by
    have hw : wrap64 (last.BlockNumber + 1) = last.BlockNumber + 1 :=
      wrap64_of_isInt64 _ (by unfold isInt64 at *; omega)
    simp [resume, hw]
  refine ⟨by rw [hstart], ?_, ?_⟩
  · intro hle
    obtain ⟨n, hn⟩ : ∃ n, (endBlock - (last.BlockNumber + 1) + 1).toNat = n + 1 :=
      ⟨(endBlock - (last.BlockNumber + 1)).toNat, by omega⟩
    simp only [collect, hstart, hn]
    exact firstFetched_collectLoop fetch n _ _
  · intro hgt
    have hn : (endBlock - (last.BlockNumber + 1) + 1).toNat = 0 := by omega
    simp only [collect, hstart, hn]
    rfl

/-- Witness for C2: a loaded sequence whose last record is block 100 makes the run
begin with block 101. -/
theorem C2_start_block_witness :
    firstFetched (collect (fun _ _ => .response [(1, 1)])
      (.ok ([⟨99, 3, 1⟩] ++ [⟨100, 0, 0⟩]))).2 = some (100 + 1) :=
  ((C2_start_block (fun _ _ => .response [(1, 1)])).2.2 [⟨99, 3, 1⟩] ⟨100, 0, 0⟩
    (by decide) (by decide)).2.1 (by decide)

/-! ## Theorems: order of the persisted sequence -/

/-- What holds of every run: the slice in memory only grows at its end, each written
sequence is the loaded one followed by the first one, two, ... new records, and the new
records are strictly ascending among themselves with block numbers from the start value
on. -/
theorem collect_append_only (fetch : Int → Nat → FetchOutcome)
    (loaded : Except String (List Reward)) :
    ∃ extra : List Reward,
      (collect fetch loaded).1 = (resume loaded).2 ++ extra ∧
      Ascending extra ∧
      (∀ r ∈ extra, (resume loaded).1 ≤ r.BlockNumber) ∧
      written (collect fetch loaded).2 =
        (List.range extra.length).map fun j => (resume loaded).2 ++ extra.take (j + 1) := by
  obtain ⟨extra, hfin, hge, hasc, _, hwr⟩ :=
    collectLoop_invariant fetch (endBlock - (resume loaded).1 + 1).toNat (resume loaded).1
      (resume loaded).2
  exact ⟨extra, hfin, hasc, hge, hwr⟩

theorem collectLoop_succ (fetch : Int → Nat → FetchOutcome) (n : Nat) (b : Int)
    (rs : List Reward) :
    collectLoop fetch (n + 1) b rs =
      ((collectLoop fetch n (b + 1) (collectBlock fetch b rs).1).1,
        (collectBlock fetch b rs).2 ++
          (collectLoop fetch n (b + 1) (collectBlock fetch b rs).1).2) := rfl

theorem written_collect_first (fetch : Int → Nat → FetchOutcome)
    (loaded : Except String (List Reward)) (n : Nat)
    (hn : (endBlock - (resume loaded).1 + 1).toNat = n + 1) :
    written (collect fetch loaded).2 =
      written (collectBlock fetch (resume loaded).1 (resume loaded).2).2 ++
        written (collectLoop fetch n ((resume loaded).1 + 1)
          (collectBlock fetch (resume loaded).1 (resume loaded).2).1).2 := by
  unfold collect
  simp only []
  rw [hn, collectLoop_succ, written_append]

theorem fetch_mem_attemptLoop (fetch : Int → Nat → FetchOutcome) (blockNumber : Int)
    (n attempt : Nat) :
    Event.fetch blockNumber attempt ∈ (attemptLoop fetch blockNumber (n + 1) attempt).events := by
  rw [attemptLoop]
  cases fetch blockNumber attempt with
  | transportError => simp
  | decodeError => simp
  | response data =>
    cases data with
    | nil => simp
    | cons d ds => simp

theorem fetch_mem_collectBlock (fetch : Int → Nat → FetchOutcome) (blockNumber : Int)
    (rewards : List Reward) :
    Event.fetch blockNumber 0 ∈ (collectBlock fetch blockNumber rewards).2 := by
  have h := fetch_mem_attemptLoop fetch blockNumber 9 0
  simp only [collectBlock]
  split
  · exact List.mem_append_left _ h
  · exact List.mem_append_left _ h

/-- The block loop entered at `blockNumber` with `remaining` iterations to go requests
exactly the block numbers `blockNumber, ..., blockNumber + remaining - 1`. -/
theorem collectLoop_fetch_iff (fetch : Int → Nat → FetchOutcome) :
    ∀ (remaining : Nat) (blockNumber : Int) (rewards : List Reward) (b : Int),
      Event.fetch b 0 ∈ (collectLoop fetch remaining blockNumber rewards).2 ↔
        blockNumber ≤ b ∧ b < blockNumber + remaining := by
  intro remaining
  induction remaining with
  | zero =>
    intro blockNumber rewards b
    simp only [collectLoop, List.not_mem_nil, false_iff]
    omega
  | succ n ih =>
    intro blockNumber rewards b
    rw [collectLoop_succ, List.mem_append, ih]
    constructor
    · rintro (h | h)
      · have := (collectBlock_cases fetch blockNumber rewards).1 b 0 h
        omega
      · omega
    · intro h
      by_cases hb : b = blockNumber
      · subst hb
        exact Or.inl (fetch_mem_collectBlock fetch b rewards)
      · exact Or.inr (by omega)

/-- Collection mode requests exactly the block numbers from the start value to `endBlock`
inclusive: the counted loop of `collect` is the loop with guard `blockNumber <= endBlock`.
-/
theorem collect_fetch_iff (fetch : Int → Nat → FetchOutcome)
    (loaded : Except String (List Reward)) (b : Int) :
    Event.fetch b 0 ∈ (collect fetch loaded).2 ↔ (resume loaded).1 ≤ b ∧ b ≤ endBlock := by
  unfold collect
  simp only []
  rw [collectLoop_fetch_iff]
  omega

/-- C5 as stated fails at the top of the `int64` range: after the strictly ascending
loaded sequence whose only record has block number `2 ^ 63 - 1`, the start value
`int(BlockNumber) + 1` wraps to `-2 ^ 63`; when the request for that block returns data,
the record appended has a smaller block number than the record before it, and the
sequence handed to `writeRewardToFile` is not ascending. -/
theorem C5_counterexample_wraparound :
    Ascending [⟨9223372036854775807, 0, 0⟩] ∧
    (resume (.ok [⟨9223372036854775807, 0, 0⟩])).1 = -9223372036854775808 ∧
    [⟨9223372036854775807, 0, 0⟩, ⟨-9223372036854775808, 1, 1⟩] ∈
      written (collect (fun _ _ => .response [(1, 1)])
        (.ok [⟨9223372036854775807, 0, 0⟩])).2 ∧
    ¬ Ascending [⟨9223372036854775807, 0, 0⟩, ⟨-9223372036854775808, 1, 1⟩] := by
  refine ⟨by simp [Ascending], by decide, ?_, by simp [Ascending]⟩
  have hstart : (resume (.ok [⟨9223372036854775807, 0, 0⟩])).1 = -9223372036854775808 := by
    decide
  obtain ⟨n, hn⟩ : ∃ n,
      (endBlock - (resume (.ok [⟨9223372036854775807, 0, 0⟩])).1 + 1).toNat = n + 1 :=
    ⟨(endBlock - (resume (.ok [⟨9223372036854775807, 0, 0⟩])).1).toNat, by
      rw [hstart]; unfold endBlock; omega⟩
  have hb : written (collectBlock (fun _ _ => FetchOutcome.response [(1, 1)])
      (resume (.ok [⟨9223372036854775807, 0, 0⟩])).1
      (resume (.ok [⟨9223372036854775807, 0, 0⟩])).2).2 =
      [[⟨9223372036854775807, 0, 0⟩, ⟨-9223372036854775808, 1, 1⟩]] := by
    decide
  rw [written_collect_first _ _ n hn, hb]
  exact List.mem_append_left _ (List.mem_singleton.2 rfl)

/-- With a loaded last block number below `2 ^ 63 - 1` the start value lies above it. -/
theorem resume_start_gt (loaded : Except String (List Reward)) (last : Reward)
    (hget : (resume loaded).2.getLast? = some last)
    (hint : isInt64 last.BlockNumber) (hmax : last.BlockNumber < 2 ^ 63 - 1) :
    last.BlockNumber < (resume loaded).1 := by
  have hw : wrap64 (last.BlockNumber + 1) = last.BlockNumber + 1 :=
    wrap64_of_isInt64 _ (by unfold isInt64 at *; omega)
  cases loaded with
  | error e => simp [resume] at hget
  | ok rewards =>
    by_cases hpos : 0 < rewards.length
    · have hget' : rewards.getLast? = some last := by
        cases hg : rewards.getLast? with
        | none => simp [resume, hpos, hg] at hget
        | some l => simpa [resume, hpos, hg] using hget
      simp only [resume, hpos, if_true, hget', hw]
      omega
    · have hnil : rewards = [] := List.length_eq_zero.1 (by omega)
      subst hnil
      simp [resume] at hget

/-- C5, amended: for every loaded sequence whose last block number is below
`2 ^ 63 - 1` (none when the store is unreadable or empty) and every pattern of fetch
outcomes: an iteration either leaves the in-memory sequence alone or appends exactly one
record, with the iteration's block number, at its end and writes the result; the
sequences written are the loaded sequence followed by the first one, two, ... appended
records, so the loaded sequence and every written sequence is a prefix of every later
one; the appended records are strictly ascending and all lie above the last loaded
record; hence, if the loaded sequence is strictly ascending, every sequence passed to
`writeRewardToFile` is strictly ascending. -/
theorem C5_append_only_ascending (fetch : Int → Nat → FetchOutcome)
    (loaded : Except String (List Reward))
    (hlast : ∀ last, (resume loaded).2.getLast? = some last →
      isInt64 last.BlockNumber ∧ last.BlockNumber < 2 ^ 63 - 1) :
    (∀ (blockNumber : Int) (rewards : List Reward),
      ((collectBlock fetch blockNumber rewards).1 = rewards ∧
          written (collectBlock fetch blockNumber rewards).2 = []) ∨
        ∃ reward txCount,
          (collectBlock fetch blockNumber rewards).1 =
            rewards ++ [⟨blockNumber, reward, txCount⟩] ∧
          written (collectBlock fetch blockNumber rewards).2 =
            [rewards ++ [⟨blockNumber, reward, txCount⟩]]) ∧
    ∃ extra : List Reward,
      (collect fetch loaded).1 = (resume loaded).2 ++ extra ∧
      written (collect fetch loaded).2 =
        (List.range extra.length).map (fun j => (resume loaded).2 ++ extra.take (j + 1)) ∧
      (∀ w ∈ written (collect fetch loaded).2, (resume loaded).2 <+: w) ∧
      (written (collect fetch loaded).2).Pairwise (fun earlier later => earlier <+: later) ∧
      Ascending extra ∧
      (∀ last, (resume loaded).2.getLast? = some last →
        ∀ r ∈ extra, last.BlockNumber < r.BlockNumber) ∧
      (Ascending (resume loaded).2 →
        ∀ w ∈ written (collect fetch loaded).2, Ascending w) := by
  refine ⟨fun blockNumber rewards => (collectBlock_cases fetch blockNumber rewards).2, ?_⟩
  obtain ⟨extra, hfin, hasc, hge, hwr⟩ := collect_append_only fetch loaded
  have habove : ∀ last, (resume loaded).2.getLast? = some last →
      ∀ r ∈ extra, last.BlockNumber < r.BlockNumber := by
    intro last hget r hr
    have h1 := resume_start_gt loaded last hget (hlast last hget).1 (hlast last hget).2
    have h2 := hge r hr
    omega
  refine ⟨extra, hfin, hwr, ?_, ?_, hasc, habove, ?_⟩
  · intro w hw
    rw [hwr] at hw
    obtain ⟨j, _, rfl⟩ := List.mem_map.1 hw
    exact List.prefix_append _ _
  · rw [hwr, List.pairwise_map]
    refine List.Pairwise.imp ?_ (List.pairwise_lt_range extra.length)
    intro j k hjk
    exact (List.prefix_append_right_inj _).2 (List.take_prefix_take_left extra (by omega))
  · intro hL w hw
    rw [hwr] at hw
    obtain ⟨j, _, rfl⟩ := List.mem_map.1 hw
    refine List.pairwise_append.2 ⟨hL, List.Pairwise.sublist (List.take_sublist _ _) hasc, ?_⟩
    intro a ha b hb
    have hne : (resume loaded).2 ≠ [] := List.ne_nil_of_mem ha
    obtain ⟨last, hget⟩ : ∃ last, (resume loaded).2.getLast? = some last := by
      cases hg : (resume loaded).2.getLast? with
      | none => exact absurd (List.getLast?_eq_none_iff.1 hg) hne
      | some l => exact ⟨l, rfl⟩
    obtain ⟨init, hinit⟩ := List.getLast?_eq_some_iff.1 hget
    have hle : a.BlockNumber ≤ last.BlockNumber := by
      rw [hinit] at ha hL
      rcases List.mem_append.1 ha with ha | ha
      · exact le_of_lt ((List.pairwise_append.1 hL).2.2 a ha last (List.mem_singleton.2 rfl))
      · rw [List.mem_singleton.1 ha]
    have hlt := habove last hget b (List.mem_of_mem_take hb)
    show a.BlockNumber < b.BlockNumber
    omega

/-- Witness for C5: the loaded sequence of blocks 99 and 100, every request answered
with data. -/
theorem C5_append_only_ascending_witness :
    Ascending [⟨99, 3, 1⟩, ⟨100, 0, 0⟩] ∧
    ∀ w ∈ written (collect (fun _ _ => .response [(1, 1)])
      (.ok [⟨99, 3, 1⟩, ⟨100, 0, 0⟩])).2, Ascending w :=
  ⟨by simp [Ascending],
    (C5_append_only_ascending (fun _ _ => .response [(1, 1)])
      (.ok [⟨99, 3, 1⟩, ⟨100, 0, 0⟩])
      (fun last hget => by
        have hl : (resume (.ok [⟨99, 3, 1⟩, ⟨100, 0, 0⟩])).2.getLast? =
            some ⟨100, 0, 0⟩ := by decide
        rw [hl] at hget
        rw [← Option.some.inj hget]
        decide)).2.choose_spec.2.2.2.2.2.2 (by
          have hL : (resume (.ok [⟨99, 3, 1⟩, ⟨100, 0, 0⟩])).2 =
              [⟨99, 3, 1⟩, ⟨100, 0, 0⟩] := by decide
          rw [hL]
          simp [Ascending])⟩

/-! ## Theorems: mean -/

theorem roundHalfEven_error (r : ℚ) : |(roundHalfEven r : ℚ) - r| ≤ 1 / 2 := by
  have h1 := Int.floor_le r
  have h2 := Int.lt_floor_add_one r
  unfold roundHalfEven
  simp only
  split_ifs with ha hb hc
  · rw [abs_le]; constructor <;> linarith
  · rw [abs_le]; push_cast; constructor <;> linarith
  · rw [abs_le]; constructor <;> linarith
  · rw [abs_le]; push_cast; constructor <;> linarith

theorem roundHalfEven_intCast (z : Int) : roundHalfEven (z : ℚ) = z := by
  unfold roundHalfEven
  simp

/-- Rounding to `prec` bits moves a value by at most the fraction `2 ^ -prec` of its
magnitude. -/
theorem roundToPrec_error (prec : Nat) (q : ℚ) :
    |roundToPrec prec q - q| ≤ |q| / 2 ^ prec := by
  by_cases hq : q = 0
  · simp [roundToPrec, hq]
  · have habs : 0 < |q| := abs_pos.2 hq
    have hlog := Int.zpow_log_le_self (b := 2) (by norm_num) habs
    simp only [roundToPrec, hq, if_false]
    generalize hs : Int.log 2 |q| - ((prec : Int) - 1) = s
    have hpos : (0 : ℚ) < 2 ^ s := zpow_pos (by norm_num) s
    have herr := roundHalfEven_error (q / 2 ^ s)
    have heq : (roundHalfEven (q / 2 ^ s) : ℚ) * 2 ^ s - q =
        ((roundHalfEven (q / 2 ^ s) : ℚ) - q / 2 ^ s) * 2 ^ s := by
      field_simp
    rw [heq, abs_mul, abs_of_pos hpos]
    have hlogeq : Int.log 2 |q| = s + ((prec : Int) - 1) := by omega
    have hsplit : ((2 : ℕ) : ℚ) ^ Int.log 2 |q| = 2 ^ s * 2 ^ prec / 2 := by
      rw [hlogeq, zpow_add₀ (by norm_num), zpow_sub₀ (by norm_num)]
      simp
      ring
    rw [hsplit] at hlog
    have h2p : (0 : ℚ) < 2 ^ prec := pow_pos (by norm_num) prec
    rw [le_div_iff₀ h2p]
    calc |(roundHalfEven (q / 2 ^ s) : ℚ) - q / 2 ^ s| * 2 ^ s * 2 ^ prec
        ≤ 1 / 2 * 2 ^ s * 2 ^ prec := by gcongr
      _ = 2 ^ s * 2 ^ prec / 2 := by ring
      _ ≤ |q| := hlog

/-- The result of rounding to `prec` bits is an integer of magnitude at most `2 ^ prec`
times a power of two. -/
theorem roundToPrec_mantissa (prec : Nat) (q : ℚ) :
    ∃ (m s : Int), roundToPrec prec q = (m : ℚ) * 2 ^ s ∧ m.natAbs ≤ 2 ^ prec := by
  by_cases hq : q = 0
  · exact ⟨0, 0, by simp [roundToPrec, hq], by simp⟩
  · have habs : 0 < |q| := abs_pos.2 hq
    have hlt := Int.lt_zpow_succ_log_self (b := 2) (by norm_num) |q|
    simp only [roundToPrec, hq, if_false]
    generalize hs : Int.log 2 |q| - ((prec : Int) - 1) = s
    refine ⟨roundHalfEven (q / 2 ^ s), s, rfl, ?_⟩
    have hpos : (0 : ℚ) < 2 ^ s := zpow_pos (by norm_num) s
    have herr := roundHalfEven_error (q / 2 ^ s)
    have hlogeq : Int.log 2 |q| + 1 = s + (prec : Int) := by omega
    have hsplit : ((2 : ℕ) : ℚ) ^ (Int.log 2 |q| + 1) = 2 ^ s * 2 ^ prec := by
      rw [hlogeq, zpow_add₀ (by norm_num), zpow_natCast]
      simp
    rw [hsplit] at hlt
    have hx : |q / 2 ^ s| < 2 ^ prec := by
      rw [abs_div, abs_of_pos hpos, div_lt_iff₀ hpos]
      linarith
    have hm : |(roundHalfEven (q / 2 ^ s) : ℚ)| < 2 ^ prec + 1 := by
      have htri := abs_sub_abs_le_abs_sub (roundHalfEven (q / 2 ^ s) : ℚ) (q / 2 ^ s)
      linarith
    have hm' : ((roundHalfEven (q / 2 ^ s)).natAbs : ℚ) < ((2 ^ prec + 1 : Nat) : ℚ) := by
      rw [Nat.cast_natAbs, Int.cast_abs]
      push_cast
      exact hm
    have := Nat.cast_lt.1 hm'
    omega

/-- An integer that fits `prec` bits is left alone by the rounding. -/
theorem roundToPrec_intCast (prec : Nat) (z : Int) (hz : z.natAbs < 2 ^ prec) :
    roundToPrec prec (z : ℚ) = z := by
  by_cases h0 : z = 0
  · simp [roundToPrec, h0]
  · have hq : (z : ℚ) ≠ 0 := by exact_mod_cast h0
    have habs : 0 < |(z : ℚ)| := abs_pos.2 hq
    have hlt : |(z : ℚ)| < ((2 : ℕ) : ℚ) ^ (prec : Int) := by
      have : |(z : ℚ)| = ((z.natAbs : ℕ) : ℚ) := by
        rw [Nat.cast_natAbs, Int.cast_abs]
      rw [this, zpow_natCast]
      exact_mod_cast hz
    have hlog := (Int.lt_zpow_iff_log_lt (b := 2) (by norm_num) habs).1 hlt
    simp only [roundToPrec, hq, if_false]
    generalize hs : Int.log 2 |(z : ℚ)| - ((prec : Int) - 1) = s
    have hs0 : s ≤ 0 := by omega
    obtain ⟨n, hn⟩ : ∃ n : Nat, s = -(n : Int) := ⟨(-s).toNat, by omega⟩
    have hint : (z : ℚ) / 2 ^ s = ((z * 2 ^ n : Int) : ℚ) := by
      rw [hn, zpow_neg, zpow_natCast]
      push_cast
      field_simp
    rw [hint, roundHalfEven_intCast, hn, zpow_neg, zpow_natCast]
    push_cast
    field_simp

theorem foldl_add_eq_sum (values : List Int) :
    ∀ acc : Int, values.foldl (fun sum reward => sum + reward) acc = acc + values.sum := by
  induction values with
  | nil => intro acc; simp
  | cons v vs ih => intro acc; rw [List.foldl_cons, ih, List.sum_cons]; ring

theorem calculateMeanSum_eq (values : List Int) : calculateMeanSum values = values.sum := by
  rw [calculateMeanSum, foldl_add_eq_sum, zero_add]

theorem meanPrec_ge (values : List Int) : 64 ≤ meanPrec values :=
  le_max_right _ _

/-- The sum itself fits the precision chosen by `SetInt`. -/
theorem sum_lt_meanPrec (values : List Int) :
    (values.sum).natAbs < 2 ^ meanPrec values := by
  have h := Nat.lt_size_self (values.sum).natAbs
  have hle : Nat.size (values.sum).natAbs ≤ meanPrec values := by
    rw [meanPrec, calculateMeanSum_eq]; exact le_max_left _ _
  exact lt_of_lt_of_le h (Nat.pow_le_pow_right (by norm_num) hle)

theorem calculateMean_of_ne_nil (values : List Int) (hne : values ≠ []) :
    calculateMean values = .ok (roundToPrec (meanPrec values)
      (roundToPrec (meanPrec values) ((values.sum : ℚ) / (values.length : ℚ)) / 10 ^ 18)) := by
  have hlen : (values.length : ℚ) ≠ 0 := by
    have : values.length ≠ 0 := fun h => hne (List.length_eq_zero.1 h)
    exact_mod_cast this
  have hpow : ¬ ((10 : ℚ) ^ 18 = 0) := by norm_num
  simp [calculateMean, bigQuo, calculateMeanSum_eq, hlen, bind, Except.bind]

theorem calculateMean_nil : calculateMean [] = .error .errNaN := by
  simp [calculateMean, bigQuo, calculateMeanSum, bind, Except.bind]

/-- The example of the two largest `int64` values: the sum is `2 ^ 64 - 2`, the precision
64 bits, and the mean returned is `9.223372036854775807` rounded to 64 bits. -/
theorem calculateMean_example :
    calculateMean [9223372036854775807, 9223372036854775807] =
      .ok (5316911983139663491 / 2 ^ 59) := by
  rw [calculateMean_of_ne_nil _ (by decide)]
  have hp : meanPrec [9223372036854775807, 9223372036854775807] = 64 := by
    have hs : calculateMeanSum [9223372036854775807, 9223372036854775807] =
        18446744073709551614 := by decide
    rw [meanPrec, hs]
    exact max_eq_right (Nat.size_le.2 (by norm_num))
  have h1 : roundToPrec 64 ((([9223372036854775807, 9223372036854775807] : List Int).sum : ℚ) /
      (([9223372036854775807, 9223372036854775807] : List Int).length : ℚ)) =
      9223372036854775807 := by
    have := roundToPrec_intCast 64 9223372036854775807 (by norm_num)
    norm_num at this ⊢
    exact this
  rw [hp, h1]
  have hq : ((9223372036854775807 : ℚ) / 10 ^ 18) ≠ 0 := by norm_num
  have hlog : Int.log 2 |(9223372036854775807 : ℚ) / 10 ^ 18| = 3 := by
    have habs : 0 < |(9223372036854775807 : ℚ) / 10 ^ 18| := abs_pos.2 hq
    apply le_antisymm
    · have := (Int.lt_zpow_iff_log_lt (b := 2) (x := 4) (by norm_num) habs).1
        (by rw [abs_of_pos (by norm_num)]; norm_num)
      omega
    · exact (Int.zpow_le_iff_le_log (b := 2) (x := 3) (by norm_num) habs).1
        (by rw [abs_of_pos (by norm_num)]; norm_num)
  simp only [roundToPrec, hq, if_false, hlog]
  have hfloor : ⌊(9223372036854775807 : ℚ) / 10 ^ 18 / 2 ^ ((3 : Int) - ((64 : Nat) - 1))⌋ =
      10633823966279326982 := by
    rw [Int.floor_eq_iff]
    norm_num [zpow_neg]
  have hround : roundHalfEven ((9223372036854775807 : ℚ) / 10 ^ 18 /
      2 ^ ((3 : Int) - ((64 : Nat) - 1))) = 10633823966279326982 := by
    unfold roundHalfEven
    simp only [hfloor]
    rw [if_pos (by norm_num [zpow_neg])]
  rw [hround]
  norm_num [zpow_neg]

/-- An integer below `2 ^ 64` in magnitude is left alone at every precision of at least
64 bits. -/
theorem roundToPrec_intCast_of_ge (prec : Nat) (hprec : 64 ≤ prec) (z : Int)
    (hz : z.natAbs < 2 ^ 64) : roundToPrec prec (z : ℚ) = z :=
  roundToPrec_intCast prec z
    (lt_of_lt_of_le hz (Nat.pow_le_pow_right (by norm_num) hprec))

/-- Two roundings of relative size at most `2 ^ -64` keep mean times count times
`10 ^ 18` within the fraction `2 ^ -62` of the sum. -/
theorem mean_tolerance (total : ℚ) (count : ℚ) (hcount : 0 < count) (prec : Nat)
    (hprec : 64 ≤ prec) :
    |roundToPrec prec (roundToPrec prec (total / count) / 10 ^ 18) * count * 10 ^ 18 - total| ≤
      |total| / 2 ^ 62 := by
  have hpow : (1 : ℚ) / 2 ^ prec ≤ 1 / 2 ^ 64 :=
    one_div_le_one_div_of_le (by positivity) (pow_le_pow_right₀ (by norm_num) hprec)
  have herr : ∀ q : ℚ, |roundToPrec prec q - q| ≤ |q| * (1 / 2 ^ 64) := by
    intro q
    have h := roundToPrec_error prec q
    have hq : |q| / 2 ^ prec = |q| * (1 / 2 ^ prec) := by ring
    rw [hq] at h
    exact le_trans h (mul_le_mul_of_nonneg_left hpow (abs_nonneg q))
  generalize ha : total / count = a
  have htotal : total = a * count := by rw [← ha]; field_simp
  have h1 := herr a
  have h2 := herr (roundToPrec prec a / 10 ^ 18)
  generalize roundToPrec prec a = r1 at h1 h2
  generalize roundToPrec prec (r1 / 10 ^ 18) = r2 at h2
  have habs2 : |r1 / 10 ^ 18| = |r1| / 10 ^ 18 := by
    rw [abs_div, abs_of_pos (by norm_num : (0 : ℚ) < 10 ^ 18)]
  rw [habs2] at h2
  have hr1 : |r1| ≤ |a| + |a| * (1 / 2 ^ 64) := by
    have := abs_sub_abs_le_abs_sub r1 a
    linarith
  have hsplit : r2 * count * 10 ^ 18 - total =
      count * 10 ^ 18 * (r2 - r1 / 10 ^ 18) + count * (r1 - a) := by
    rw [htotal]; field_simp; ring
  have htri : |r2 * count * 10 ^ 18 - total| ≤
      count * 10 ^ 18 * |r2 - r1 / 10 ^ 18| + count * |r1 - a| := by
    have e1 : |count * 10 ^ 18 * (r2 - r1 / 10 ^ 18)| =
        count * 10 ^ 18 * |r2 - r1 / 10 ^ 18| := by
      rw [abs_mul, abs_of_pos (by positivity : (0 : ℚ) < count * 10 ^ 18)]
    have e2 : |count * (r1 - a)| = count * |r1 - a| := by
      rw [abs_mul, abs_of_pos hcount]
    rw [hsplit]
    refine le_trans (abs_add _ _) ?_
    rw [e1, e2]
  have hT : |total| = |a| * count := by rw [htotal, abs_mul, abs_of_pos hcount]
  have hA := abs_nonneg a
  have hb1 : count * 10 ^ 18 * |r2 - r1 / 10 ^ 18| ≤
      count * 10 ^ 18 * (|r1| / 10 ^ 18 * (1 / 2 ^ 64)) :=
    mul_le_mul_of_nonneg_left h2 (by positivity)
  have hb1' : count * 10 ^ 18 * (|r1| / 10 ^ 18 * (1 / 2 ^ 64)) =
      count * |r1| * (1 / 2 ^ 64) := by field_simp; ring
  have hb2 : count * |r1 - a| ≤ count * (|a| * (1 / 2 ^ 64)) :=
    mul_le_mul_of_nonneg_left h1 (le_of_lt hcount)
  have hb3 : count * |r1| * (1 / 2 ^ 64) ≤
      count * (|a| + |a| * (1 / 2 ^ 64)) * (1 / 2 ^ 64) :=
    mul_le_mul_of_nonneg_right (mul_le_mul_of_nonneg_left hr1 (le_of_lt hcount))
      (by positivity)
  have hAc : 0 ≤ |a| * count := mul_nonneg hA (le_of_lt hcount)
  rw [hT]
  have hfinal : count * (|a| + |a| * (1 / 2 ^ 64)) * (1 / 2 ^ 64) +
      count * (|a| * (1 / 2 ^ 64)) ≤ |a| * count / 2 ^ 62 := by
    have : count * (|a| + |a| * (1 / 2 ^ 64)) * (1 / 2 ^ 64) +
        count * (|a| * (1 / 2 ^ 64)) =
        |a| * count * (2 / 2 ^ 64 + 1 / 2 ^ 128) := by ring
    rw [this, div_eq_mul_one_div (|a| * count)]
    exact mul_le_mul_of_nonneg_left (by norm_num) hAc
  linarith

/-- C8: for every non-empty list of rewards the sum that `calculateMean` accumulates is
the integer sum of the values, with no reduction modulo `2 ^ 64`; the mean returned is
that sum divided by the count and then by `10 ^ 18`, each quotient rounded to the
precision of at least 64 bits of the `big.Float`. When the two divisions are exact (the
rounding changes neither quotient), mean times count times `10 ^ 18` is the sum; in every
case it differs from the sum by at most the fraction `2 ^ -62` of the sum. -/
theorem C8_mean_exact (values : List Int) (hne : values ≠ []) :
    calculateMeanSum values = values.sum ∧
    64 ≤ meanPrec values ∧
    calculateMean values = .ok (roundToPrec (meanPrec values)
      (roundToPrec (meanPrec values) ((values.sum : ℚ) / (values.length : ℚ)) / 10 ^ 18)) ∧
    (roundToPrec (meanPrec values) ((values.sum : ℚ) / (values.length : ℚ)) =
        (values.sum : ℚ) / (values.length : ℚ) →
      roundToPrec (meanPrec values) ((values.sum : ℚ) / (values.length : ℚ) / 10 ^ 18) =
        (values.sum : ℚ) / (values.length : ℚ) / 10 ^ 18 →
      ∀ mean, calculateMean values = .ok mean →
        mean = (values.sum : ℚ) / (values.length : ℚ) / 10 ^ 18 ∧
        mean * (values.length : ℚ) * 10 ^ 18 = (values.sum : ℚ)) ∧
    (∀ mean, calculateMean values = .ok mean →
      |mean * (values.length : ℚ) * 10 ^ 18 - (values.sum : ℚ)| ≤
        |(values.sum : ℚ)| / 2 ^ 62) := by
  have hlen : (values.length : ℚ) ≠ 0 := by
    have : values.length ≠ 0 := fun h => hne (List.length_eq_zero.1 h)
    exact_mod_cast this
  have hpos : (0 : ℚ) < (values.length : ℚ) := by
    have : 0 < values.length := List.length_pos.2 hne
    exact_mod_cast this
  have hmean := calculateMean_of_ne_nil values hne
  refine ⟨calculateMeanSum_eq values, meanPrec_ge values, hmean, ?_, ?_⟩
  · intro h1 h2 mean hm
    rw [hmean, h1, h2] at hm
    have hval : mean = (values.sum : ℚ) / (values.length : ℚ) / 10 ^ 18 :=
      (Except.ok.inj hm).symm
    refine ⟨hval, ?_⟩
    rw [hval]
    generalize (values.sum : ℚ) = total
    field_simp
    ring
  · intro mean hm
    rw [hmean] at hm
    rw [← Except.ok.inj hm]
    exact mean_tolerance _ _ hpos _ (meanPrec_ge values)

/-- Witness for C8: two rewards of `2 ^ 63 - 1` add up to `2 ^ 64 - 2`, above the
`int64` range, and the mean returned stays within the tolerance; for the rewards `10 ^ 18`
and `3 * 10 ^ 18` both divisions are exact and the mean returned is 2. -/
theorem C8_mean_exact_witness :
    [9223372036854775807, 9223372036854775807] ≠ ([] : List Int) ∧
    calculateMeanSum [9223372036854775807, 9223372036854775807] =
      [9223372036854775807, 9223372036854775807].sum ∧
    [9223372036854775807, 9223372036854775807].sum = (18446744073709551614 : Int) ∧
    (∀ mean, calculateMean [1000000000000000000, 3000000000000000000] = .ok mean →
      mean = ((([1000000000000000000, 3000000000000000000] : List Int).sum : Int) : ℚ) /
        ((([1000000000000000000, 3000000000000000000] : List Int).length : Nat) : ℚ) /
          10 ^ 18 ∧
      mean * ((([1000000000000000000, 3000000000000000000] : List Int).length : Nat) : ℚ) *
        10 ^ 18 =
        ((([1000000000000000000, 3000000000000000000] : List Int).sum : Int) : ℚ)) :=
  ⟨by decide,
    (C8_mean_exact [9223372036854775807, 9223372036854775807] (by decide)).1, by decide,
    (C8_mean_exact [1000000000000000000, 3000000000000000000] (by decide)).2.2.2.1
      (by
        have e : ((([1000000000000000000, 3000000000000000000] : List Int).sum : Int) : ℚ) /
            ((([1000000000000000000, 3000000000000000000] : List Int).length : Nat) : ℚ) =
            ((2000000000000000000 : Int) : ℚ) := by norm_num
        rw [e]
        exact roundToPrec_intCast_of_ge _ (meanPrec_ge _) 2000000000000000000 (by norm_num))
      (by
        have e : ((([1000000000000000000, 3000000000000000000] : List Int).sum : Int) : ℚ) /
            ((([1000000000000000000, 3000000000000000000] : List Int).length : Nat) : ℚ) /
            10 ^ 18 = ((2 : Int) : ℚ) := by norm_num
        rw [e]
        exact roundToPrec_intCast_of_ge _ (meanPrec_ge _) 2 (by norm_num))⟩

/-! ## Theorems: median -/

theorem sortSlice_length (values : List Int) : (sortSlice values).length = values.length :=
  List.length_insertionSort _ values

theorem sortSlice_sorted (values : List Int) : (sortSlice values).Sorted (· ≤ ·) :=
  List.sorted_insertionSort _ values

theorem sortSlice_perm (values : List Int) : (sortSlice values).Perm values :=
  List.perm_insertionSort _ values

theorem index_of_lt {α : Type} (s : List α) (i : Nat) (h : i < s.length) :
    index s (i : Int) = .ok s[i] :=
  index_natCast s i _ (List.getElem?_eq_getElem h)

/-- In an ascending list the entry at position `i` has at least `i + 1` entries that
are no larger and at least `length - i` entries that are no smaller. -/
theorem sorted_count_bounds (s : List Int) (hs : s.Sorted (· ≤ ·)) (i : Nat)
    (h : i < s.length) :
    i + 1 ≤ s.countP (fun x => decide (x ≤ s[i])) ∧
    s.length - i ≤ s.countP (fun x => decide (s[i] ≤ x)) := by
  have hpair := List.pairwise_iff_getElem.1 hs
  have hle : ∀ (a b : Nat) (ha : a < s.length) (hb : b < s.length), a ≤ b → s[a] ≤ s[b] := by
    intro a b ha hb hab
    rcases Nat.lt_or_eq_of_le hab with hlt | rfl
    · exact hpair a b ha hb hlt
    · exact le_refl _
  constructor
  · have hall : (s.take (i + 1)).countP (fun x => decide (x ≤ s[i])) =
        (s.take (i + 1)).length := by
      rw [List.countP_eq_length]
      intro x hx
      obtain ⟨j, hj, rfl⟩ := List.mem_take_iff_getElem.1 hx
      have hj' : j < i + 1 := lt_of_lt_of_le hj (min_le_left _ _)
      exact decide_eq_true (hle j i (by omega) h (by omega))
    have hsub := List.Sublist.countP_le (fun x => decide (x ≤ s[i])) (List.take_sublist (i + 1) s)
    rw [hall, List.length_take] at hsub
    omega
  · have hall : (s.drop i).countP (fun x => decide (s[i] ≤ x)) = (s.drop i).length := by
      rw [List.countP_eq_length]
      intro x hx
      obtain ⟨j, hj, rfl⟩ := List.mem_drop_iff_getElem.1 hx
      exact decide_eq_true (hle i (i + j) h (by omega) (by omega))
    have hsub := List.Sublist.countP_le (fun x => decide (s[i] ≤ x)) (List.drop_sublist i s)
    rw [hall, List.length_drop] at hsub
    exact hsub

/-- The odd case of `calculateMedian`, for any conversion to `float64`. -/
theorem calculateMedian_odd {F : Type} [Field F] (toF : Int → F) (values : List Int)
    (hodd : values.length % 2 = 1) :
    ∃ h : (values.length - 1) / 2 < (sortSlice values).length,
      calculateMedian toF values =
        .ok (toF (sortSlice values)[(values.length - 1) / 2], sortSlice values) := by
  have hlen := sortSlice_length values
  have hpos : (values.length - 1) / 2 < (sortSlice values).length := by omega
  refine ⟨hpos, ?_⟩
  have hmid : ((sortSlice values).length : Int) / 2 = (((values.length - 1) / 2 : Nat) : Int) := by
    omega
  have hne : ¬ (((sortSlice values).length : Int) % 2 = 0) := by omega
  unfold calculateMedian
  simp only [hne, if_false, hmid, index_of_lt _ _ hpos]
  rfl

/-- The even case of `calculateMedian`, for any conversion to `float64`. -/
theorem calculateMedian_even {F : Type} [Field F] (toF : Int → F) (values : List Int)
    (hne : values ≠ []) (heven : values.length % 2 = 0) :
    ∃ (h₁ : values.length / 2 - 1 < (sortSlice values).length)
      (h₂ : values.length / 2 < (sortSlice values).length),
      calculateMedian toF values =
        .ok (toF (wrap64 ((sortSlice values)[values.length / 2 - 1] +
          (sortSlice values)[values.length / 2])) / 2, sortSlice values) := by
  have hlen := sortSlice_length values
  have hpos : 0 < values.length := List.length_pos.2 hne
  have h₁ : values.length / 2 - 1 < (sortSlice values).length := by omega
  have h₂ : values.length / 2 < (sortSlice values).length := by omega
  refine ⟨h₁, h₂, ?_⟩
  have hmid : ((sortSlice values).length : Int) / 2 = ((values.length / 2 : Nat) : Int) := by
    omega
  have hmid1 : ((values.length / 2 : Nat) : Int) - 1 = ((values.length / 2 - 1 : Nat) : Int) := by
    omega
  have hev : ((sortSlice values).length : Int) % 2 = 0 := by omega
  unfold calculateMedian
  simp only [hev, if_true, hmid, hmid1, index_of_lt _ _ h₁, index_of_lt _ _ h₂]
  rfl

theorem calculateMedian_nil {F : Type} [Field F] (toF : Int → F) :
    calculateMedian toF [] = .error (.indexOutOfRange (-1) 0) := by
  rfl

theorem excessBits_bounds :
    ∀ (fuel m : Nat), 2 ^ 53 ≤ m → m < 2 ^ 53 * 2 ^ fuel →
      1 ≤ excessBits fuel m ∧ 2 ^ 52 * 2 ^ excessBits fuel m ≤ m ∧
        m < 2 ^ 53 * 2 ^ excessBits fuel m := by
  intro fuel
  induction fuel with
  | zero => intro m h1 h2; simp at h2; omega
  | succ n ih =>
    intro m h1 h2
    have hnot : ¬ m < 2 ^ 53 := by omega
    rw [excessBits, if_neg hnot]
    by_cases hsmall : m / 2 < 2 ^ 53
    · have h0 : excessBits n (m / 2) = 0 := by
        cases n with
        | zero => rfl
        | succ k => rw [excessBits, if_pos hsmall]
      rw [h0]
      norm_num
      omega
    · have hlt : m / 2 < 2 ^ 53 * 2 ^ n := by
        rw [pow_succ] at h2
        omega
      obtain ⟨he, hlo, hhi⟩ := ih (m / 2) (by omega) hlt
      refine ⟨by omega, ?_, ?_⟩
      · rw [pow_succ]; omega
      · rw [pow_succ]; omega

/-- The conversion `roundF64` of an `int64` is a number with a significand of at most 53
bits, `q * 2 ^ e` with `q ≤ 2 ^ 53`, at distance at most half a unit `2 ^ e` of the last
place from the value converted, and `e = 0` unless the significand is full. -/
theorem roundF64_nearest (x : Int) (hx : isInt64 x) :
    ∃ e q : Nat, (roundF64 x).natAbs = q * 2 ^ e ∧ q ≤ 2 ^ 53 ∧
      2 * (roundF64 x - x).natAbs ≤ 2 ^ e ∧ (e = 0 ∨ 2 ^ 52 ≤ q) ∧
      Int.sign (roundF64 x) = Int.sign x := by
  by_cases hsmall : x.natAbs < 2 ^ 53
  · refine ⟨0, x.natAbs, ?_⟩
    simp only [roundF64, hsmall, if_true]
    exact ⟨by simp, le_of_lt hsmall, by simp, Or.inl trivial, trivial⟩
  · have hm : x.natAbs < 2 ^ 53 * 2 ^ 64 := by
      unfold isInt64 at hx
      norm_num at hx ⊢
      omega
    obtain ⟨he, hlo, hhi⟩ := excessBits_bounds 64 x.natAbs (by omega) hm
    generalize hE : excessBits 64 x.natAbs = e at he hlo hhi
    have hpow : 2 ^ e = 2 * 2 ^ (e - 1) := by
      rw [← pow_succ']
      congr 1
      omega
    have hP : 0 < 2 ^ (e - 1) := Nat.pow_pos (by norm_num)
    have hdm := Nat.div_add_mod x.natAbs (2 ^ e)
    have hmod : x.natAbs % 2 ^ e < 2 ^ e := Nat.mod_lt _ (by rw [hpow]; omega)
    have hq1 : 2 ^ 52 ≤ x.natAbs / 2 ^ e := by
      rw [Nat.le_div_iff_mul_le (by rw [hpow]; omega)]
      exact hlo
    have hq2 : x.natAbs / 2 ^ e < 2 ^ 53 := by
      rw [Nat.div_lt_iff_lt_mul (by rw [hpow]; omega)]
      exact hhi
    have hxne : x ≠ 0 := by
      intro h0; rw [h0] at hsmall; simp at hsmall
    have hsignpos : ∀ k : Nat, 0 < k → Int.sign (Int.sign x * (k : Int)) = Int.sign x := by
      intro k hk
      rw [Int.sign_mul, Int.sign_sign]
      have : Int.sign (k : Int) = 1 := Int.sign_eq_one_of_pos (by exact_mod_cast hk)
      rw [this, mul_one]
    have hnat : ∀ k : Nat, (Int.sign x * (k : Int)).natAbs = k := by
      intro k
      rw [Int.natAbs_mul, Int.natAbs_sign_of_nonzero hxne, one_mul, Int.natAbs_ofNat]
    have hdiff : ∀ k : Nat, (Int.sign x * (k : Int) - x).natAbs =
        ((k : Int) - (x.natAbs : Int)).natAbs := by
      intro k
      have hx' : Int.sign x * (x.natAbs : Int) = x := Int.sign_mul_natAbs x
      have : Int.sign x * (k : Int) - x = Int.sign x * ((k : Int) - (x.natAbs : Int)) := by
        rw [mul_sub, hx']
      rw [this, Int.natAbs_mul, Int.natAbs_sign_of_nonzero hxne, one_mul]
    by_cases hc : 2 ^ (e - 1) < x.natAbs % 2 ^ e ∨
        (x.natAbs % 2 ^ e = 2 ^ (e - 1) ∧ x.natAbs / 2 ^ e % 2 = 1)
    · have hround : roundF64 x =
          Int.sign x * (((x.natAbs / 2 ^ e + 1) * 2 ^ e : Nat) : Int) := by
        simp only [roundF64, hsmall, if_false, hE, hc, if_true]
      have hk : (x.natAbs / 2 ^ e + 1) * 2 ^ e = 2 ^ e * (x.natAbs / 2 ^ e) + 2 ^ e := by ring
      refine ⟨e, x.natAbs / 2 ^ e + 1, ?_, by omega, ?_, Or.inr (by omega), ?_⟩
      · rw [hround, hnat]
      · rw [hround, hdiff, hk]
        have hr : 2 ^ (e - 1) ≤ x.natAbs % 2 ^ e := by
          rcases hc with h | h
          · exact le_of_lt h
          · exact le_of_eq h.1.symm
        omega
      · rw [hround]
        exact hsignpos _ (Nat.mul_pos (Nat.succ_pos _) (by rw [hpow]; omega))
    · have hround : roundF64 x = Int.sign x * (((x.natAbs / 2 ^ e) * 2 ^ e : Nat) : Int) := by
        simp only [roundF64, hsmall, if_false, hE, hc]
      have hk : (x.natAbs / 2 ^ e) * 2 ^ e = 2 ^ e * (x.natAbs / 2 ^ e) := by ring
      have hr : x.natAbs % 2 ^ e ≤ 2 ^ (e - 1) := by
        by_contra hgt
        exact hc (Or.inl (by omega))
      refine ⟨e, x.natAbs / 2 ^ e, ?_, by omega, ?_, Or.inr hq1, ?_⟩
      · rw [hround, hnat]
      · rw [hround, hdiff, hk]
        omega
      · rw [hround]
        exact hsignpos _ (Nat.mul_pos (by omega) (by rw [hpow]; omega))

theorem roundF64_exact (x : Int) (h : x.natAbs ≤ 2 ^ 53) : roundF64 x = x := by
  rcases Nat.lt_or_eq_of_le h with hlt | heq
  · simp only [roundF64, hlt, if_true]
  · have hx : x = 9007199254740992 ∨ x = -9007199254740992 := by omega
    rcases hx with rfl | rfl <;> decide

theorem toFloat64_exact (x : Int) (h : x.natAbs ≤ 2 ^ 53) : toFloat64 x = (x : ℚ) := by
  rw [toFloat64, roundF64_exact x h]

/-- What the even case returns when the sum of the two middle values stays inside the
`int64` range: the `float64` nearest to the sum, halved; with a sum of magnitude at most
`2 ^ 53` that is the exact average. -/
theorem calculateMedian_even_of_no_overflow (values : List Int) (hne : values ≠ [])
    (heven : values.length % 2 = 0) :
    ∃ a b, (sortSlice values)[values.length / 2 - 1]? = some a ∧
      (sortSlice values)[values.length / 2]? = some b ∧
      (isInt64 (a + b) →
        calculateMedian toFloat64 values = .ok (toFloat64 (a + b) / 2, sortSlice values)) ∧
      ((a + b).natAbs ≤ 2 ^ 53 →
        calculateMedian toFloat64 values = .ok (((a + b : Int) : ℚ) / 2, sortSlice values)) := by
  obtain ⟨h₁, h₂, hmed⟩ := calculateMedian_even toFloat64 values hne heven
  refine ⟨_, _, List.getElem?_eq_getElem h₁, List.getElem?_eq_getElem h₂, ?_, ?_⟩
  · intro hin
    rw [hmed, wrap64_of_isInt64 _ hin]
  · intro hsmall
    have hin : isInt64 ((sortSlice values)[values.length / 2 - 1] +
        (sortSlice values)[values.length / 2]) := by
      unfold isInt64; omega
    rw [hmed, wrap64_of_isInt64 _ hin, toFloat64_exact _ hsmall]

/-- The even-length example of the specification: the median of `[10, 20, 30, 40]` is
25. -/
theorem calculateMedian_example_even :
    calculateMedian toFloat64 [10, 20, 30, 40] = .ok (25, [10, 20, 30, 40]) := by
  obtain ⟨_, _, hmed⟩ := calculateMedian_even toFloat64 [10, 20, 30, 40] (by decide) (by decide)
  rw [hmed]
  have hs : sortSlice [10, 20, 30, 40] = [10, 20, 30, 40] := by decide
  have hr : roundF64 (wrap64 50) = 50 := by decide
  simp only [hs, List.length_cons, List.length_nil]
  simp only [toFloat64]
  norm_num [hr]

/-- C6 fails on the code: for the even-length list of two rewards of `2 ^ 62` (about
4.6 units of `10 ^ 18`) the `int64` sum of the two middle values wraps to `-2 ^ 63`,
and `calculateMedian` returns `-2 ^ 62`, while the average of the two values is
`2 ^ 62`. -/
theorem C6_median_even_overflow :
    calculateMedian toFloat64 [4611686018427387904, 4611686018427387904] =
      .ok (-4611686018427387904, [4611686018427387904, 4611686018427387904]) ∧
    ((4611686018427387904 : ℚ) + 4611686018427387904) / 2 = 4611686018427387904 ∧
    (-4611686018427387904 : ℚ) ≠ 4611686018427387904 := by
  refine ⟨?_, by norm_num, by norm_num⟩
  obtain ⟨_, _, hmed⟩ := calculateMedian_even toFloat64
    [4611686018427387904, 4611686018427387904] (by decide) (by decide)
  rw [hmed]
  have hs : sortSlice [4611686018427387904, 4611686018427387904] =
      [4611686018427387904, 4611686018427387904] := by decide
  have hr : roundF64 (wrap64 9223372036854775808) = -9223372036854775808 := by decide
  simp only [hs, List.length_cons, List.length_nil]
  simp only [toFloat64]
  norm_num [hr]

/-- C7 as stated fails: for the one-element list `[2 ^ 53 + 1]` the middle element is
`2 ^ 53 + 1`, and `calculateMedian` returns its `float64` conversion `2 ^ 53`, which is
not a value of the list. -/
theorem C7_counterexample_rounding :
    calculateMedian toFloat64 [9007199254740993] =
      .ok (9007199254740992, [9007199254740993]) ∧
    ∀ v ∈ [(9007199254740993 : Int)], (v : ℚ) ≠ 9007199254740992 := by
  constructor
  · obtain ⟨_, hmed⟩ := calculateMedian_odd toFloat64 [9007199254740993] (by decide)
    rw [hmed]
    have hs : sortSlice [9007199254740993] = [9007199254740993] := by decide
    have hr : roundF64 9007199254740993 = 9007199254740992 := by decide
    simp only [hs, List.length_cons, List.length_nil]
    simp only [toFloat64]
    norm_num [hr]
  · intro v hv
    rw [List.mem_singleton.1 hv]
    norm_num

/-- C7, amended: for every list of odd length `n`, in any order, `calculateMedian`
returns the `float64` conversion of the element `m` at position `(n - 1) / 2` of the
list sorted ascending; `m` is a value of the list with at least `(n + 1) / 2` elements
`≤ m` and at least `(n + 1) / 2` elements `≥ m`, and the conversion returns `m` itself
when `|m| ≤ 2 ^ 53`. For every permutation of `[1, 2, 3]` the result is 2. -/
theorem C7_median_odd (values : List Int) (hodd : values.length % 2 = 1) :
    (sortSlice values).Sorted (· ≤ ·) ∧ (sortSlice values).Perm values ∧
    (∃ m, (sortSlice values)[(values.length - 1) / 2]? = some m ∧
      calculateMedian toFloat64 values = .ok (toFloat64 m, sortSlice values) ∧
      (m.natAbs ≤ 2 ^ 53 →
        calculateMedian toFloat64 values = .ok ((m : ℚ), sortSlice values)) ∧
      m ∈ values ∧
      (values.length + 1) / 2 ≤ values.countP (fun x => decide (x ≤ m)) ∧
      (values.length + 1) / 2 ≤ values.countP (fun x => decide (m ≤ x))) ∧
    (∀ p : List Int, p.Perm [1, 2, 3] →
      calculateMedian toFloat64 p = .ok (2, [1, 2, 3])) := by
  have hsorted := sortSlice_sorted values
  have hperm := sortSlice_perm values
  refine ⟨hsorted, hperm, ?_, ?_⟩
  · obtain ⟨hpos, hmed⟩ := calculateMedian_odd toFloat64 values hodd
    have hcount := sorted_count_bounds (sortSlice values) hsorted _ hpos
    rw [hperm.countP_eq, hperm.countP_eq, sortSlice_length] at hcount
    refine ⟨_, List.getElem?_eq_getElem hpos, hmed, ?_, ?_, ?_, ?_⟩
    · intro hsmall
      rw [hmed, toFloat64_exact _ hsmall]
    · exact hperm.mem_iff.1 (List.getElem_mem _)
    · have := hcount.1; omega
    · have := hcount.2; omega
  · intro p hp
    have hlen : p.length = 3 := hp.length_eq
    obtain ⟨_, hmed⟩ := calculateMedian_odd toFloat64 p (by rw [hlen])
    have hs : sortSlice p = [1, 2, 3] :=
      List.eq_of_perm_of_sorted ((sortSlice_perm p).trans hp) (sortSlice_sorted p)
        (by decide)
    rw [hmed]
    simp only [hs, hlen]
    have hr : roundF64 2 = 2 := by decide
    simp only [toFloat64]
    norm_num [hr]

/-- Witness for C7: the list `[3, 1, 2]`. -/
theorem C7_median_odd_witness :
    [3, 1, 2].length % 2 = 1 ∧
    calculateMedian toFloat64 [3, 1, 2] = .ok (2, [1, 2, 3]) :=
  ⟨by decide, (C7_median_odd [3, 1, 2] (by decide)).2.2.2 [3, 1, 2] (by decide)⟩

/-! ## Theorems: range, standard deviation and the whole report -/

theorem calculateRange_nil {F : Type} [Field F] (toF : Int → F) (lt : F → F → Bool) :
    calculateRange toF lt [] = .error (.indexOutOfRange 0 0) := by
  rfl

theorem calculateRange_of_ne_nil {F : Type} [Field F] (toF : Int → F) (lt : F → F → Bool)
    (values : List Int) (hne : values ≠ []) :
    ∃ mm, calculateRange toF lt values = .ok mm := by
  cases values with
  | nil => exact absurd rfl hne
  | cons v vs =>
    have hidx : index (v :: vs) 0 = .ok v := by
      have := index_of_lt (v :: vs) 0 (Nat.succ_pos _)
      simpa using this
    unfold calculateRange
    rw [hidx]
    exact ⟨_, rfl⟩

theorem calculateMedian_of_ne_nil {F : Type} [Field F] (toF : Int → F) (values : List Int)
    (hne : values ≠ []) :
    ∃ med, calculateMedian toF values = .ok (med, sortSlice values) := by
  rcases Nat.mod_two_eq_zero_or_one values.length with heven | hodd
  · obtain ⟨_, _, h⟩ := calculateMedian_even toF values hne heven
    exact ⟨_, h⟩
  · obtain ⟨_, h⟩ := calculateMedian_odd toF values hodd
    exact ⟨_, h⟩

theorem sortSlice_ne_nil (values : List Int) (hne : values ≠ []) : sortSlice values ≠ [] := by
  intro h
  have := sortSlice_length values
  rw [h] at this
  exact hne (List.length_eq_zero.1 this.symm)

theorem printStatistics_nil {F : Type} [Field F] (toF : Int → F) (ofBig : ℚ → F)
    (sqrt : F → F) (lt : F → F → Bool) :
    printStatistics toF ofBig sqrt lt [] = .error .errNaN := by
  simp [printStatistics, calculateMean_nil, bind, Except.bind]

/-- On a non-empty list `printStatistics` returns; the standard deviation it obtains is
`calculateStdDev` of the sorted slice against the mean times `1e18`. -/
theorem printStatistics_of_ne_nil {F : Type} [Field F] (toF : Int → F) (ofBig : ℚ → F)
    (sqrt : F → F) (lt : F → F → Bool) (values : List Int) (hne : values ≠ []) :
    ∃ mean med mm,
      calculateMean values = .ok mean ∧
      calculateMedian toF values = .ok (med, sortSlice values) ∧
      calculateRange toF lt (sortSlice values) = .ok mm ∧
      printStatistics toF ofBig sqrt lt values =
        .ok ⟨ofBig mean, med / 10 ^ 18,
          calculateStdDev toF sqrt (sortSlice values) (ofBig mean * 10 ^ 18),
          calculateStdDev toF sqrt (sortSlice values) (ofBig mean * 10 ^ 18) / 10 ^ 18,
          mm.1, mm.2⟩ := by
  obtain ⟨med, hmed⟩ := calculateMedian_of_ne_nil toF values hne
  obtain ⟨mm, hmm⟩ := calculateRange_of_ne_nil toF lt (sortSlice values)
    (sortSlice_ne_nil values hne)
  refine ⟨_, med, mm, calculateMean_of_ne_nil values hne, hmed, hmm, ?_⟩
  simp only [printStatistics, calculateMean_of_ne_nil values hne, hmed, hmm, bind,
    Except.bind, pure, Except.pure]

theorem filterMap_eq_nil_of_none {α β : Type} (f : α → Option β) :
    ∀ l : List α, (∀ a ∈ l, f a = none) → l.filterMap f = [] := by
  intro l
  induction l with
  | nil => intro _; rfl
  | cons a l ih =>
    intro h
    rw [List.filterMap_cons, h a (List.mem_cons_self a l)]
    exact ih (fun b hb => h b (List.mem_cons_of_mem a hb))

theorem postEmptyBlockSpec_eq_nil (rewards : List Reward)
    (h : ∀ (i : Nat) (hi : i + 1 < rewards.length), rewards[i].TxCount ≠ 0) :
    postEmptyBlockSpec rewards = [] := by
  apply filterMap_eq_nil_of_none
  intro i _
  by_cases hi : i + 1 < rewards.length
  · rw [dif_pos hi, if_neg (h i hi)]
  · rw [dif_neg hi]

/-- C10: the statistics of `printStatistics` are computed without a panic exactly when
the list is non-empty. On the empty list `calculateMean` panics on the quotient 0/0,
`calculateMedian` on index -1 and `calculateRange` on index 0; on a non-empty list all
three return. Hence `printMathResults` panics on every dataset in which no record other
than the last has `TxCount = 0`. -/
theorem C10_statistics_fail_iff_empty {F : Type} [Field F] (toF : Int → F) (ofBig : ℚ → F)
    (sqrt : F → F) (lt : F → F → Bool) :
    (∀ values : List Int,
      (∃ s, printStatistics toF ofBig sqrt lt values = .ok s) ↔ values ≠ []) ∧
    printStatistics toF ofBig sqrt lt [] = .error .errNaN ∧
    calculateMean [] = .error .errNaN ∧
    calculateMedian toF [] = .error (.indexOutOfRange (-1) 0) ∧
    calculateRange toF lt [] = .error (.indexOutOfRange 0 0) ∧
    (∀ values : List Int, values ≠ [] →
      (∃ mean, calculateMean values = .ok mean) ∧
      (∃ med, calculateMedian toF values = .ok med) ∧
      (∃ mm, calculateRange toF lt values = .ok mm)) ∧
    (∀ rewards : List Reward,
      (∀ (i : Nat) (hi : i + 1 < rewards.length), rewards[i].TxCount ≠ 0) →
      emptyBlockRewards rewards = .ok [] ∧
      ∃ p, printMathResults toF ofBig sqrt lt rewards = .error p) := by
  refine ⟨fun values => ⟨?_, ?_⟩, printStatistics_nil toF ofBig sqrt lt, calculateMean_nil,
    calculateMedian_nil toF, calculateRange_nil toF lt, ?_, ?_⟩
  · rintro ⟨s, hs⟩ hnil
    rw [hnil, printStatistics_nil] at hs
    cases hs
  · intro hne
    obtain ⟨mean, med, mm, _, _, _, h⟩ :=
      printStatistics_of_ne_nil toF ofBig sqrt lt values hne
    exact ⟨_, h⟩
  · intro values hne
    obtain ⟨med, hmed⟩ := calculateMedian_of_ne_nil toF values hne
    exact ⟨⟨_, calculateMean_of_ne_nil values hne⟩, ⟨_, hmed⟩,
      calculateRange_of_ne_nil toF lt values hne⟩
  · intro rewards h
    have hempty : emptyBlockRewards rewards = .ok [] := by
      rw [emptyBlockRewards_eq, postEmptyBlockSpec_eq_nil rewards h]
    refine ⟨hempty, ?_⟩
    unfold printMathResults
    simp only [hempty, printStatistics_nil, bind, Except.bind]
    cases printStatistics toF ofBig sqrt lt (allValues rewards) with
    | error p => exact ⟨p, rfl⟩
    | ok s => exact ⟨_, rfl⟩

/-- Witness for C10: a dataset of two records of which only the last has no
transactions. -/
theorem C10_statistics_fail_iff_empty_witness :
    ∃ p, printMathResults toFloat64 (fun q => q) (fun x => x) (fun a b => decide (a < b))
      [⟨1, 5, 3⟩, ⟨2, 9, 0⟩] = .error p :=
  ((C10_statistics_fail_iff_empty toFloat64 (fun q => q) (fun x => x)
    (fun a b => decide (a < b))).2.2.2.2.2.2 [⟨1, 5, 3⟩, ⟨2, 9, 0⟩]
    (fun i hi => by
      have h0 : i = 0 := by simp only [List.length_cons, List.length_nil] at hi; omega
      subst h0
      simp)).2

theorem foldl_sq_eq_sum {F : Type} [Field F] (g : Int → F) (values : List Int) :
    ∀ acc : F, values.foldl (fun sum value => sum + g value) acc =
      acc + (values.map g).sum := by
  induction values with
  | nil => intro acc; simp
  | cons v vs ih => intro acc; rw [List.foldl_cons, ih, List.map_cons, List.sum_cons]; ring

/-- What `printStatistics` obtains over exact real arithmetic: the deviations of the
scaled values `v / 10 ^ 18` are taken from `mean * 10 ^ 18`, the mean returned by
`calculateMean` put back into unscaled units by the caller. -/
theorem printStatistics_stdDev_real (values : List Int) (hne : values ≠ []) :
    ∃ mean s, calculateMean values = .ok mean ∧
      printStatistics (fun v => (v : ℝ)) (fun q => (q : ℝ)) Real.sqrt
        (fun a b => decide (a < b)) values = .ok s ∧
      s.stdDev = Real.sqrt ((values.map fun (v : Int) =>
        ((v : ℝ) / 10 ^ 18 - (mean : ℝ) * 10 ^ 18) ^ 2).sum / (values.length : ℝ)) := by
  obtain ⟨mean, med, mm, hmean, _, _, h⟩ := printStatistics_of_ne_nil (fun v => (v : ℝ))
    (fun q => (q : ℝ)) Real.sqrt (fun a b => decide (a < b)) values hne
  refine ⟨mean, _, hmean, h, ?_⟩
  simp only [calculateStdDev]
  rw [foldl_sq_eq_sum (fun value => ((value : ℝ) / 10 ^ 18 - (mean : ℝ) * 10 ^ 18) ^ 2),
    zero_add, sortSlice_length]
  congr 2
  exact ((sortSlice_perm values).map _).sum_eq

/-- The mean returned for the single reward `10 ^ 18` is 1: both quotients are exact. -/
theorem calculateMean_single_unit : calculateMean [1000000000000000000] = .ok 1 := by
  rw [calculateMean_of_ne_nil _ (by decide)]
  have e1 : (((([1000000000000000000] : List Int).sum : Int) : ℚ) /
      ((([1000000000000000000] : List Int).length : Nat) : ℚ)) =
      ((1000000000000000000 : Int) : ℚ) := by norm_num
  rw [e1, roundToPrec_intCast_of_ge _ (meanPrec_ge _) 1000000000000000000 (by norm_num)]
  have e2 : ((1000000000000000000 : Int) : ℚ) / 10 ^ 18 = ((1 : Int) : ℚ) := by norm_num
  rw [e2, roundToPrec_intCast_of_ge _ (meanPrec_ge _) 1 (by norm_num)]
  norm_num

/-- C9 fails on the code: for the single reward `10 ^ 18` the population standard
deviation in scaled units is 0, while the value `printStatistics` obtains from
`calculateStdDev` is `10 ^ 18 - 1`: the mean handed over is `mean * 1e18`, in unscaled
units, and `calculateStdDev` subtracts it from the scaled value `v / 1e18`. -/
theorem C9_stdDev_unit_mismatch :
    (∃ s, printStatistics (fun v => (v : ℝ)) (fun q => (q : ℝ)) Real.sqrt
        (fun a b => decide (a < b)) [1000000000000000000] = .ok s ∧
      s.stdDev = 10 ^ 18 - 1) ∧
    populationStdDev Real.sqrt [1000000000000000000] = (0 : ℝ) ∧
    ((10 : ℝ) ^ 18 - 1 ≠ 0) := by
  refine ⟨?_, ?_, by norm_num⟩
  · obtain ⟨mean, s, hmean, hs, hsd⟩ :=
      printStatistics_stdDev_real [1000000000000000000] (by decide)
    rw [calculateMean_single_unit] at hmean
    have hm : mean = 1 := (Except.ok.inj hmean).symm
    subst hm
    refine ⟨s, hs, ?_⟩
    rw [hsd]
    have hval : (([1000000000000000000] : List Int).map fun (v : Int) =>
        ((v : ℝ) / 10 ^ 18 - ((1 : ℚ) : ℝ) * 10 ^ 18) ^ 2).sum /
          (([1000000000000000000] : List Int).length : ℝ) = ((10 : ℝ) ^ 18 - 1) ^ 2 := by
      norm_num
    rw [hval]
    exact Real.sqrt_sq (by norm_num)
  · simp [populationStdDev]

end MevResearch
